import Mathlib

/-!
Verification of the lexer-generator core (`LexerGenerator.cpp`).

The definitions below are a shallow embedding of the source.  Machine
integers are modelled as `Int`/`Nat` (no arithmetic here ever nears the
32-bit bound except the explicit `INT_MAX` initial value, which is kept
concrete).  The classes `RegexParser`, `LexerItem`, `LexerState` and the
comparator `shared_ptr_less` are declared but not defined in the sources;
where a definition depends on them it is modelled from the spec and its
doc comment says so.  Stateful construction is explicit state passing on
`GenSt`; object identity (addresses) is modelled by allocation ids, and
field mutations are additionally recorded in an event trace.
-/

namespace Lalr

/-! ## Actions (`LexerGenerator::add_lexer_action`) -/

/-- A named semantic action with its interned index (`LexerAction`). -/
structure LexerAction where
  index : Nat
  identifier : String
deriving DecidableEq, Repr

/-- Embedding of `LexerGenerator::add_lexer_action`: an empty identifier
yields no action; otherwise the actions list is scanned linearly for a
matching identifier, and on a miss a fresh action is appended whose index
is the current size of the list. -/
def add_lexer_action (actions : List LexerAction) (identifier : String) :
    Option LexerAction × List LexerAction :=
  if identifier = "" then (none, actions)
  else
    match actions.find? (fun a => a.identifier = identifier) with
    | some a => (some a, actions)
    | none =>
      let a : LexerAction := ⟨actions.length, identifier⟩
      (some a, actions ++ [a])

/-! ## RangeSet (`LexerGenerator::insert`, `clear`, and the range walk) -/

/-- Embedding of the second loop of `LexerGenerator::insert`: for every
marker with character below `e` the old flag is recorded and the flag is
set to true; if no marker sits at `e`, a marker `(e, a)` is inserted where
`a` is the last recorded flag. -/
def insertLoop2 (a : Bool) (e : Int) : List (Int × Bool) → List (Int × Bool)
  | [] => [(e, a)]
  | (c, m) :: rest =>
    if c < e then (c, true) :: insertLoop2 m e rest
    else if c = e then (c, m) :: rest
    else (e, a) :: (c, m) :: rest

/-- Embedding of the first loop of `LexerGenerator::insert`: markers with
character below `b` are skipped while their flag is tracked; if no marker
sits at `b`, a marker `(b, true)` is inserted (and is not visited by the
second loop). -/
def insertGo (b e : Int) : Bool → List (Int × Bool) → List (Int × Bool)
  | a, [] => (b, true) :: insertLoop2 a e []
  | a, (c, m) :: rest =>
    if c < b then (c, m) :: insertGo b e m rest
    else if c = b then insertLoop2 a e ((c, m) :: rest)
    else (b, true) :: insertLoop2 a e ((c, m) :: rest)

/-- Embedding of `LexerGenerator::insert` on the marker list `ranges_`. -/
def insert (ms : List (Int × Bool)) (b e : Int) : List (Int × Bool) :=
  insertGo b e false ms

/-- Folding `insert` over a list of ranges starting from a cleared
(`LexerGenerator::clear`) marker list. -/
def insertAll (rs : List (Int × Int)) : List (Int × Bool) :=
  rs.foldl (fun ms r => insert ms r.1 r.2) []

/-- The iteration rule as the spec states it: walk the marker list
pairwise and emit each interval whose left marker has flag true. -/
def intervalsOf : List (Int × Bool) → List (Int × Int)
  | (c, true) :: (d, m) :: rest => (c, d) :: intervalsOf ((d, m) :: rest)
  | (_, false) :: rest => intervalsOf rest
  | _ => []

/-- Embedding of the range walk in `LexerGenerator::generate_states`
(lines 305 to 330): emit an interval from the current marker to the next,
advance one marker, and skip one more marker when the new one has flag
false. -/
def walkRanges : List (Int × Bool) → List (Int × Int)
  | (c, _) :: (d, m) :: rest =>
    (c, d) :: (if m then walkRanges ((d, m) :: rest) else walkRanges rest)
  | [_] => []
  | [] => []

/-- Flag of the last marker at or before `x`, starting from accumulator
`a`; this is the denotation of a marker list as a set of characters. -/
def insideGo (x : Int) : Bool → List (Int × Bool) → Bool
  | a, [] => a
  | a, (c, m) :: rest => if c ≤ x then insideGo x m rest else a

/-- A character is inside the marker list when the last marker at or
before it has flag true (false when there is no such marker). -/
def inside (ms : List (Int × Bool)) (x : Int) : Bool := insideGo x false ms

/-- Membership of a character in a union of half-open ranges. -/
def coveredBy (rs : List (Int × Int)) (x : Int) : Bool :=
  rs.any fun r => decide (r.1 ≤ x) && decide (x < r.2)

/-- Strictly ascending marker characters. -/
def MarkersSorted (ms : List (Int × Bool)) : Prop :=
  ms.Pairwise fun p q => p.1 < q.1

/-- The last marker, when present, has flag false. -/
def LastFalse (ms : List (Int × Bool)) : Prop :=
  ∀ p, ms.getLast? = some p → p.2 = false

/-- Every character of a lower-bounded marker list is above `l`. -/
def MarkersLB (l : Int) (ms : List (Int × Bool)) : Prop :=
  ∀ p, p ∈ ms → l < p.1

/-- An interval of a decomposition of the union of `rs` is maximal when it
is nonempty, all its characters are covered, and the characters adjacent
to it on either side are not. -/
def MaximalIn (rs : List (Int × Int)) (iv : Int × Int) : Prop :=
  iv.1 < iv.2 ∧ (∀ x, iv.1 ≤ x → x < iv.2 → coveredBy rs x = true) ∧
    coveredBy rs (iv.1 - 1) = false ∧ coveredBy rs iv.2 = false

/-! ## Tokens, regex nodes and accept-symbol selection -/

/-- The data of a `LexerToken` that symbol selection consults: the token
type as a priority ordinal (`TOKEN_NULL` is 0), the source line, and an
opaque symbol id. -/
structure LexerToken where
  type : Nat
  line : Int
  symbol : Nat
deriving DecidableEq, Repr

/-- The data of a leaf `RegexNode` (a position): its half-open character
range, whether it is an end marker, its token when it is one, and its
followpos set as position indices. -/
structure RegexNode where
  beginChar : Int
  endChar : Int
  isEnd : Bool
  token : Option LexerToken
  follow : List Nat
deriving DecidableEq, Repr

/-- The value `INT_MAX` used to initialise the line in
`LexerGenerator::generate_symbol_for_state`. -/
def INT_MAX : Int := 2147483647

/-- Accumulator of `generate_symbol_for_state`: current best line, type
and token, plus the conflict errors fired so far (each records the tokens
passed to the error constructor). -/
structure SymSel where
  line : Int
  type : Nat
  token : Option LexerToken
  conflicts : List (Option LexerToken × LexerToken)
deriving DecidableEq, Repr

/-- Initial accumulator: line `INT_MAX`, type `TOKEN_NULL`, no token. -/
def initSymSel : SymSel := ⟨INT_MAX, 0, none, []⟩

/-- One step of the selection cascade of
`LexerGenerator::generate_symbol_for_state` on an end token: a strictly
higher type wins; an equal type with a strictly earlier line wins; an
equal type and equal line fires a symbol-conflict error. -/
def symStepToken (s : SymSel) (t : LexerToken) : SymSel :=
  if t.type > s.type then { s with line := t.line, type := t.type, token := some t }
  else if t.type = s.type ∧ t.line < s.line then
    { s with line := t.line, type := t.type, token := some t }
  else if t.type = s.type ∧ t.line = s.line then
    { s with conflicts := s.conflicts ++ [(s.token, t)] }
  else s

/-- One step of the node scan: only end nodes carrying a token take part. -/
def symStep (s : SymSel) (n : RegexNode) : SymSel :=
  if n.isEnd then
    match n.token with
    | some t => symStepToken s t
    | none => s
  else s

/-- Scan of one item's node set. -/
def scanNodes (s : SymSel) (ns : List RegexNode) : SymSel := ns.foldl symStep s

/-- Embedding of `LexerGenerator::generate_symbol_for_state` over the
items of a state, each item given as its node list in set order. -/
def generate_symbol_for_state (items : List (List RegexNode)) : SymSel :=
  items.foldl scanNodes initSymSel

/-- The symbol written back to the state: the selected token's symbol, or
none. -/
def stateSymbol (items : List (List RegexNode)) : Option Nat :=
  (generate_symbol_for_state items).token.map (fun t => t.symbol)

/-- The tokens of the end nodes of one node list, in order. -/
def nodeTokens (ns : List RegexNode) : List LexerToken :=
  ns.filterMap fun n => if n.isEnd then n.token else none

/-- All tokens of end nodes of a state's items, in visitation order. -/
def endTokens (items : List (List RegexNode)) : List LexerToken :=
  (items.map nodeTokens).flatten

/-- The token scan underlying the node scan: fold the selection cascade
over a token list. -/
def scanTokens (s : SymSel) (ts : List LexerToken) : SymSel :=
  ts.foldl symStepToken s

/-- Pure reduction of the cascade on (type, line) pairs: the second pair
replaces the first exactly when its type is higher, or its type is equal
and its line strictly earlier. -/
def selPair (p q : Nat × Int) : Nat × Int :=
  if q.1 > p.1 then q
  else if q.1 = p.1 ∧ q.2 < p.2 then q
  else p

/-- Priority order on (type, line) pairs: higher type first, then earlier
line. -/
def pairLe (p q : Nat × Int) : Prop := p.1 < q.1 ∨ (p.1 = q.1 ∧ q.2 ≤ p.2)

/-- The (type, line) pair of a token. -/
def tokenPair (t : LexerToken) : Nat × Int := (t.type, t.line)

/-- The winning (type, line) pair over a token list. -/
def bestPair (ts : List LexerToken) : Nat × Int :=
  ts.foldl (fun p t => selPair p (tokenPair t)) (0, INT_MAX)

/-! ## Item sets and state identity -/

/-- Default node used by the total lookup. -/
def defaultNode : RegexNode := ⟨0, 0, false, none, []⟩

/-- Total lookup of a position in the node arena. -/
def getNode (nodes : List RegexNode) (p : Nat) : RegexNode :=
  nodes.getD p defaultNode

/-- Ordered insertion without duplicates, modelling insertion into a
position set. -/
def insertPos (x : Nat) : List Nat → List Nat
  | [] => [x]
  | y :: ys => if x < y then x :: y :: ys else if x = y then y :: ys else y :: insertPos x ys

/-- Canonical sorted duplicate-free form of a list of positions,
modelling the contents of a position set. -/
def toPosSet (l : List Nat) : List Nat := l.foldr insertPos []

/-- Boolean lexicographic order on lists induced by an element order. -/
def lexLt (lt : α → α → Bool) : List α → List α → Bool
  | _, [] => false
  | [], _ :: _ => true
  | x :: xs, y :: ys => if lt x y then true else if lt y x then false else lexLt lt xs ys

/-- Modelled from the spec: LexerItem ordering is lexicographic compare
of positions (the LexerItem class is absent from the sources). -/
def itemLt (a b : List Nat) : Bool := lexLt (fun x y => decide (x < y)) a b

/-- Modelled from the spec: LexerState identity and order is by its item
set (the LexerState class and shared_ptr_less are absent from the
sources). -/
def itemsLt (a b : List (List Nat)) : Bool := lexLt itemLt a b

/-- Ordered insertion of an item into a state's item set. -/
def insertSortedItem (it : List Nat) : List (List Nat) → List (List Nat)
  | [] => [it]
  | j :: js =>
    if itemLt it j then it :: j :: js
    else if it = j then j :: js
    else j :: insertSortedItem it js

/-- Modelled from the spec: `LexerItem::next_nodes(b, e)` is the union of
the followpos sets of the item's positions whose character range
intersects `[b, e)` and which are not end nodes (the LexerItem class is
absent from the sources). -/
def nextNodes (nodes : List RegexNode) (item : List Nat) (b e : Int) : List Nat :=
  toPosSet (item.foldl (fun acc p =>
    let n := getNode nodes p
    if !n.isEnd && decide (n.beginChar < e) && decide (b < n.endChar) then acc ++ n.follow
    else acc) [])

/-- The nonempty next-position sets contributed by each item of a state
on `[b, e)`, in item order; these are the `add_item` calls performed by
`LexerGenerator::goto_`. -/
def gotoAdds (nodes : List RegexNode) (items : List (List Nat)) (b e : Int) :
    List (List Nat) :=
  items.filterMap fun it =>
    let nn := nextNodes nodes it b e
    if nn.isEmpty then none else some nn

/-- The item set of the goto state built by `LexerGenerator::goto_`. -/
def gotoItems (nodes : List RegexNode) (items : List (List Nat)) (b e : Int) :
    List (List Nat) :=
  (gotoAdds nodes items b e).foldl (fun acc nn => insertSortedItem nn acc) []

/-- Resolve a state's items to their node records for symbol selection. -/
def itemNodes (nodes : List RegexNode) (items : List (List Nat)) :
    List (List RegexNode) :=
  items.map fun it => it.map (getNode nodes)

/-- One position's contribution to the distinct ranges: non-end nodes
insert their character range, end nodes contribute nothing. -/
def rangeStep (nodes : List RegexNode) (ms : List (Int × Bool)) (p : Nat) :
    List (Int × Bool) :=
  if (getNode nodes p).isEnd then ms
  else insert ms (getNode nodes p).beginChar (getNode nodes p).endChar

/-- One item's contribution to the distinct ranges. -/
def itemRanges (nodes : List RegexNode) (ms : List (Int × Bool))
    (it : List Nat) : List (Int × Bool) :=
  it.foldl (rangeStep nodes) ms

/-- The distinct-range marker list a state transitions on: every non-end
node of every item contributes its character range via `insert`
(`LexerGenerator::generate_states`, lines 285 to 299). -/
def computeRanges (nodes : List RegexNode) (items : List (List Nat)) :
    List (Int × Bool) :=
  items.foldl (itemRanges nodes) []

/-! ## The construction state machine -/

/-- Field mutations performed on states during generation, tagged by the
allocation id of the state object they touch. -/
inductive Event where
  | addItem (sid : Nat) (item : List Nat)
  | setSymbol (sid : Nat) (symbol : Option Nat)
  | setProcessed (sid : Nat)
  | addTransition (sid : Nat) (b e : Int) (target : Nat)
  | setIndex (sid : Nat) (index : Nat)
deriving DecidableEq, Repr

/-- The allocation id an event touches. -/
def Event.sid : Event → Nat
  | addItem s _ => s
  | setSymbol s _ => s
  | setProcessed s => s
  | addTransition s _ _ _ => s
  | setIndex s _ => s

/-- A DFA state: allocation id (object identity), item set, processed
flag, accepting symbol, transition list, and assigned index. -/
structure LexerState where
  sid : Nat
  items : List (List Nat)
  processed : Bool
  symbol : Option Nat
  transitions : List (Int × Int × Nat)
  index : Option Nat
deriving DecidableEq, Repr

/-- A freshly allocated state. -/
def mkState (sid : Nat) (items : List (List Nat)) (symbol : Option Nat) :
    LexerState :=
  ⟨sid, items, false, symbol, [], none⟩

/-- Generator state: the state set kept sorted by item sets, the next
allocation id, the conflict errors fired, and the mutation trace. -/
structure GenSt where
  states : List LexerState
  nextId : Nat
  fired : List (Option LexerToken × LexerToken)
  trace : List Event
deriving DecidableEq, Repr

/-- Ordered insertion of a state into the set, by item-set order. -/
def insertStateSorted (s : LexerState) : List LexerState → List LexerState
  | [] => [s]
  | t :: ts =>
    if itemsLt s.items t.items then s :: t :: ts else t :: insertStateSorted s ts

/-- Interning lookup: the state with exactly these items, when present. -/
def findState (states : List LexerState) (its : List (List Nat)) :
    Option LexerState :=
  states.find? fun s => s.items = its

/-- Set the processed flag of the state with the given id. -/
def markProcessed (states : List LexerState) (sid : Nat) : List LexerState :=
  states.map fun s => if s.sid = sid then { s with processed := true } else s

/-- Append a transition to the state with the given id. -/
def addTransitionTo (states : List LexerState) (sid : Nat) (tr : Int × Int × Nat) :
    List LexerState :=
  states.map fun s =>
    if s.sid = sid then { s with transitions := s.transitions ++ [tr] } else s

/-- Handling of one distinct range `[b, e)` out of the state with id
`sid` and items `its`: build the goto state (a fresh allocation), discard
it when empty, otherwise intern it; a newly interned state gets its
symbol generated; in either case a transition is added to the source
state (`LexerGenerator::generate_states`, lines 305 to 330). -/
def processRange (nodes : List RegexNode) (sid : Nat) (its : List (List Nat))
    (g : GenSt) (b e : Int) : GenSt :=
  let adds := gotoAdds nodes its b e
  let gi := gotoItems nodes its b e
  let tempId := g.nextId
  let g1 : GenSt := { g with nextId := g.nextId + 1,
                             trace := g.trace ++ adds.map (Event.addItem tempId) }
  if gi = [] then g1
  else
    match findState g1.states gi with
    | some t =>
      { g1 with states := addTransitionTo g1.states sid (b, e, t.sid),
                trace := g1.trace ++ [Event.addTransition sid b e t.sid] }
    | none =>
      let sel := generate_symbol_for_state (itemNodes nodes gi)
      let sym := sel.token.map (fun t => t.symbol)
      { g1 with states := insertStateSorted (mkState tempId gi sym)
                            (addTransitionTo g1.states sid (b, e, tempId)),
                fired := g1.fired ++ sel.conflicts,
                trace := g1.trace ++
                  [Event.setSymbol tempId sym, Event.addTransition sid b e tempId] }

/-- Processing of one unprocessed state: mark it processed, compute its
distinct ranges, and handle each emitted range in order. -/
def processState (nodes : List RegexNode) (g : GenSt) (sid : Nat)
    (its : List (List Nat)) : GenSt :=
  let g1 : GenSt := { g with states := markProcessed g.states sid,
                             trace := g.trace ++ [Event.setProcessed sid] }
  (walkRanges (computeRanges nodes its)).foldl
    (fun gg r => processRange nodes sid its gg r.1 r.2) g1

/-- The first unprocessed state in set order. -/
def firstUnprocessed (states : List LexerState) : Option LexerState :=
  states.find? fun s => !s.processed

/-- The closure loop of `LexerGenerator::generate_states`: process
unprocessed states in set order until none remains, bounded by fuel. -/
def genLoop (nodes : List RegexNode) : Nat → GenSt → GenSt
  | 0, g => g
  | fuel + 1, g =>
    match firstUnprocessed g.states with
    | none => g
    | some s => genLoop nodes fuel (processState nodes g s.sid s.items)

/-- Modelled from the spec: the output of RegexParser that
`generate_states` consults (the RegexParser class is absent from the
sources): whether the combined tree is empty, the error count, the leaf
arena, and the root's firstpos. -/
structure RegexParserOut where
  empty : Bool
  errors : Nat
  nodes : List RegexNode
  firstpos : List Nat
deriving DecidableEq, Repr

/-- Result of one `generate_states` call: the generator state and the
start state (by allocation id). -/
structure GsOut where
  gen : GenSt
  start : Option Nat
deriving DecidableEq, Repr

/-- Embedding of `LexerGenerator::generate_states`: when the parse tree
is nonempty and error free, seed the set with a start state holding one
item (the root's firstpos), generate its symbol, and run the closure
loop; otherwise produce no states and a null start.  `firstId` is the
next free allocation id (object identities are globally unique across the
two DFAs, as addresses are). -/
def generate_states (p : RegexParserOut) (fuel : Nat) (firstId : Nat) : GsOut :=
  if !p.empty && p.errors == 0 then
    let its : List (List Nat) := [toPosSet p.firstpos]
    let sel := generate_symbol_for_state (itemNodes p.nodes its)
    let sym := sel.token.map (fun t => t.symbol)
    let g0 : GenSt := { states := [mkState firstId its sym],
                        nextId := firstId + 1,
                        fired := sel.conflicts,
                        trace := [Event.addItem firstId (toPosSet p.firstpos),
                                  Event.setSymbol firstId sym] }
    ⟨genLoop p.nodes fuel g0, some firstId⟩
  else
    ⟨⟨[], firstId, [], []⟩, none⟩

/-- Index assignment from a running counter, as in
`LexerGenerator::generate_indices_for_states`. -/
def assignIndices (i : Nat) : List LexerState → List LexerState
  | [] => []
  | s :: ss => { s with index := some i } :: assignIndices (i + 1) ss

/-- Embedding of `LexerGenerator::generate_indices_for_states`: number
the main states from 0 in set order, then the whitespace states
continuing from the same counter. -/
def generate_indices_for_states (main ws : List LexerState) :
    List LexerState × List LexerState :=
  (assignIndices 0 main, assignIndices main.length ws)

/-- The index events emitted by one numbering pass. -/
def indexEvents (i : Nat) : List LexerState → List Event
  | [] => []
  | s :: ss => Event.setIndex s.sid i :: indexEvents (i + 1) ss

/-- Observable result of the two-list constructor of `LexerGenerator`:
both state lists with final indices, both start states, the fired errors
and the full mutation trace.  The constructor runs `generate_states` for
the token list and then for the whitespace list; each call ends with an
index pass over both members, so the first pass's indices are overwritten
by the second. -/
structure LexerGenerator where
  states : List LexerState
  whitespaceStates : List LexerState
  startState : Option Nat
  whitespaceStartState : Option Nat
  fired : List (Option LexerToken × LexerToken)
  trace : List Event
deriving DecidableEq, Repr

/-- Canonical ordering invariant of the state set: states strictly
ascending by their item sets. -/
def StatesSorted (g : GenSt) : Prop :=
  g.states.Pairwise fun a b => itemsLt a.items b.items = true

/-- Every state's symbol field holds exactly what
generate_symbol_for_state computes from its items. -/
def SymbolsOk (nodes : List RegexNode) (g : GenSt) : Prop :=
  ∀ s ∈ g.states, s.symbol = stateSymbol (itemNodes nodes s.items)

/-- No item is added to a state object after that object's processed flag
has been set. -/
def NoIAP (tr : List Event) : Prop :=
  ∀ u sid v, tr = u ++ Event.setProcessed sid :: v →
    ∀ it, Event.addItem sid it ∉ v

/-- The construction invariant: the lifecycle discipline of the trace,
allocation ids below the allocation counter, symbols as computed, and the
state set canonically sorted. -/
def GenInv (nodes : List RegexNode) (base : Nat) (g : GenSt) : Prop :=
  NoIAP g.trace ∧ base ≤ g.nextId ∧
  (∀ sid, Event.setProcessed sid ∈ g.trace → sid < g.nextId) ∧
  (∀ sid it, Event.addItem sid it ∈ g.trace → base ≤ sid) ∧
  (∀ s ∈ g.states, s.sid < g.nextId) ∧
  SymbolsOk nodes g ∧ StatesSorted g

/-- Embedding of the two-list constructor of `LexerGenerator`. -/
def runGenerator (p pw : RegexParserOut) (fuel : Nat) : LexerGenerator :=
  let m := generate_states p fuel 0
  let w := generate_states pw fuel m.gen.nextId
  let pair := generate_indices_for_states m.gen.states w.gen.states
  { states := pair.1, whitespaceStates := pair.2,
    startState := m.start, whitespaceStartState := w.start,
    fired := m.gen.fired ++ w.gen.fired,
    trace := m.gen.trace ++ indexEvents 0 m.gen.states ++ w.gen.trace ++
      indexEvents 0 m.gen.states ++ indexEvents m.gen.states.length w.gen.states }

/-! ## The error sink (`fire_error`) -/

/-- Embedding of `LexerGenerator::fire_error`: the sink is modelled as an
optional list of received errors; a null sink receives nothing. -/
def fire_error (sink : Option (List (Option LexerToken × LexerToken)))
    (ev : Option LexerToken × LexerToken) :
    Option (List (Option LexerToken × LexerToken)) :=
  match sink with
  | none => none
  | some l => some (l ++ [ev])

/-- Delivery of every fired error to the sink, in order. -/
def deliverAll (sink : Option (List (Option LexerToken × LexerToken)))
    (evs : List (Option LexerToken × LexerToken)) :
    Option (List (Option LexerToken × LexerToken)) :=
  evs.foldl fire_error sink

/-- A full run together with the final sink contents. -/
structure RunWithSink where
  result : LexerGenerator
  sink : Option (List (Option LexerToken × LexerToken))
deriving DecidableEq, Repr

/-- Run the generator and deliver its fired errors to the given sink;
the construction itself never reads the sink (in the source,
`event_sink_` is read only inside `fire_error` and `fire_printf`, whose
results do not feed back into generation). -/
def runWithSink (sink : Option (List (Option LexerToken × LexerToken)))
    (p pw : RegexParserOut) (fuel : Nat) : RunWithSink :=
  let r := runGenerator p pw fuel
  ⟨r, deliverAll sink r.fired⟩

/-! ## Lemmas: RangeSet semantics -/

theorem insideGo_insertLoop2 (x e : Int) (a : Bool) (ms : List (Int × Bool)) :
    insideGo x true (insertLoop2 a e ms) =
      if x < e then true else insideGo x a ms := by
  induction ms generalizing a with
  | nil =>
    by_cases h : x < e <;> simp [insertLoop2, insideGo, h]
  | cons p rest ih =>
    obtain ⟨c, m⟩ := p
    by_cases h1 : c < e
    · by_cases h2 : c ≤ x
      · by_cases h3 : x < e <;>
          simp [insertLoop2, insideGo, h1, h2, h3, ih]
      · have h3 : x < e := by omega
        simp [insertLoop2, insideGo, h1, h2, h3]
    · by_cases he : c = e
      · subst he
        by_cases h2 : c ≤ x <;> by_cases h3 : x < c <;>
          simp [insertLoop2, insideGo, h2, h3] <;> omega
      · have hgt : e < c := by omega
        by_cases h2 : e ≤ x
        · have h4 : ¬ x < e := by omega
          simp [insertLoop2, insideGo, h1, he, h2, h4]
        · have h4 : x < e := by omega
          have h5 : ¬ c ≤ x := by omega
          simp [insertLoop2, insideGo, h1, he, h2, h4, h5]

theorem insideGo_insertGo (x b e : Int) (hbe : b < e) (a : Bool)
    (ms : List (Int × Bool)) :
    insideGo x a (insertGo b e a ms) =
      (insideGo x a ms || (decide (b ≤ x) && decide (x < e))) := by
  induction ms generalizing a with
  | nil =>
    by_cases h1 : b ≤ x
    · by_cases h2 : x < e <;>
        simp [insertGo, insertLoop2, insideGo, h1, h2]
    · have h2 : ¬ e ≤ x := by omega
      simp [insertGo, insertLoop2, insideGo, h1, h2]
  | cons p rest ih =>
    obtain ⟨c, m⟩ := p
    by_cases h1 : c < b
    · by_cases h2 : c ≤ x
      · simp [insertGo, insideGo, h1, h2, ih]
      · have h3 : ¬ b ≤ x := by omega
        simp [insertGo, insideGo, h1, h2, h3]
    · by_cases heq : c = b
      · subst heq
        have hce : c < e := hbe
        by_cases h2 : c ≤ x
        · by_cases h3 : x < e <;>
            simp [insertGo, insertLoop2, insideGo, h1, hce, h2, h3,
              insideGo_insertLoop2]
        · have h3 : ¬ c ≤ x := h2
          simp [insertGo, insertLoop2, insideGo, h1, hce, h2, h3]
      · by_cases h2 : b ≤ x
        · by_cases h3 : x < e <;>
            simp [insertGo, insideGo, h1, heq, h2, h3, insideGo_insertLoop2]
        · have h3 : ¬ b ≤ x := h2
          have h4 : ¬ c ≤ x := by omega
          simp [insertGo, insideGo, h1, heq, h2, h3, h4]

theorem inside_insert (x b e : Int) (hbe : b < e) (ms : List (Int × Bool)) :
    inside (insert ms b e) x =
      (inside ms x || (decide (b ≤ x) && decide (x < e))) :=
  insideGo_insertGo x b e hbe false ms

theorem inside_foldl_insert (rs : List (Int × Int)) (ms : List (Int × Bool))
    (h : ∀ r ∈ rs, r.1 < r.2) (x : Int) :
    inside (rs.foldl (fun m r => insert m r.1 r.2) ms) x =
      (inside ms x || coveredBy rs x) := by
  induction rs generalizing ms with
  | nil => simp [coveredBy]
  | cons r rest ih =>
    have hr : r.1 < r.2 := h r (by simp)
    have hrest : ∀ q ∈ rest, q.1 < q.2 := fun q hq => h q (by simp [hq])
    simp only [List.foldl_cons, ih _ hrest, inside_insert x r.1 r.2 hr,
      coveredBy, List.any_cons]
    cases inside ms x <;> cases hx : decide (r.1 ≤ x) && decide (x < r.2) <;>
      simp [hx, Bool.or_comm, Bool.or_assoc, Bool.or_left_comm]

theorem inside_insertAll (rs : List (Int × Int)) (h : ∀ r ∈ rs, r.1 < r.2)
    (x : Int) : inside (insertAll rs) x = coveredBy rs x := by
  simpa [inside, insideGo] using inside_foldl_insert rs [] h x

/-! ## Lemmas: RangeSet structural invariants -/

theorem insertLoop2_sorted (a : Bool) (e : Int) (ms : List (Int × Bool))
    (hms : MarkersSorted ms) :
    MarkersSorted (insertLoop2 a e ms) ∧
      ∀ l, l < e → MarkersLB l ms → MarkersLB l (insertLoop2 a e ms) := by
  induction ms generalizing a with
  | nil =>
    refine ⟨by simp [insertLoop2, MarkersSorted], ?_⟩
    intro l hl _
    intro p hp
    simp [insertLoop2] at hp
    subst hp
    exact hl
  | cons q rest ih =>
    obtain ⟨c, m⟩ := q
    have hrest : MarkersSorted rest := (List.pairwise_cons.mp hms).2
    have hcLB : MarkersLB c rest := fun p hp => (List.pairwise_cons.mp hms).1 p hp
    by_cases h1 : c < e
    · have ihm := ih m hrest
      refine ⟨?_, ?_⟩
      · simp only [insertLoop2, if_pos h1]
        exact List.pairwise_cons.mpr ⟨ihm.2 c h1 hcLB, ihm.1⟩
      · intro l hl hLB
        simp only [insertLoop2, if_pos h1]
        intro p hp
        rcases List.mem_cons.mp hp with hp | hp
        · subst hp
          exact hLB (c, m) (by simp)
        · have hc : l < c := hLB (c, m) (by simp)
          exact lt_trans hc (ihm.2 c h1 hcLB p hp)
    · by_cases h2 : c = e
      · subst h2
        refine ⟨?_, ?_⟩
        · simp only [insertLoop2, if_neg h1, if_pos rfl]
          exact hms
        · intro l hl hLB
          simp only [insertLoop2, if_neg h1, if_pos rfl]
          exact hLB
      · refine ⟨?_, ?_⟩
        · simp only [insertLoop2, if_neg h1, if_neg h2]
          refine List.pairwise_cons.mpr ⟨?_, hms⟩
          intro p hp
          rcases List.mem_cons.mp hp with hp | hp
          · subst hp; omega
          · have : c < p.1 := hcLB p hp
            omega
        · intro l hl hLB
          simp only [insertLoop2, if_neg h1, if_neg h2]
          intro p hp
          rcases List.mem_cons.mp hp with hp | hp
          · subst hp; exact hl
          · exact hLB p hp

theorem insertGo_sorted (b e : Int) (hbe : b < e) (a : Bool)
    (ms : List (Int × Bool)) (hms : MarkersSorted ms) :
    MarkersSorted (insertGo b e a ms) ∧
      ∀ l, l < b → MarkersLB l ms → MarkersLB l (insertGo b e a ms) := by
  induction ms generalizing a with
  | nil =>
    refine ⟨?_, ?_⟩
    · simp only [insertGo, insertLoop2]
      exact List.pairwise_cons.mpr ⟨by intro p hp; simp at hp; subst hp; exact hbe,
        by simp [MarkersSorted]⟩
    · intro l hl _
      intro p hp
      simp [insertGo, insertLoop2] at hp
      rcases hp with hp | hp <;> (subst hp; simp; omega)
  | cons q rest ih =>
    obtain ⟨c, m⟩ := q
    have hrest : MarkersSorted rest := (List.pairwise_cons.mp hms).2
    have hcLB : MarkersLB c rest := fun p hp => (List.pairwise_cons.mp hms).1 p hp
    by_cases h1 : c < b
    · have ihm := ih m hrest
      refine ⟨?_, ?_⟩
      · simp only [insertGo, if_pos h1]
        exact List.pairwise_cons.mpr ⟨ihm.2 c h1 hcLB, ihm.1⟩
      · intro l hl hLB
        simp only [insertGo, if_pos h1]
        intro p hp
        rcases List.mem_cons.mp hp with hp | hp
        · subst hp
          exact hLB (c, m) (by simp)
        · have hc : l < c := hLB (c, m) (by simp)
          exact lt_trans hc (ihm.2 c h1 hcLB p hp)
    · by_cases h2 : c = b
      · subst h2
        have hsl := insertLoop2_sorted a e ((c, m) :: rest) hms
        refine ⟨?_, ?_⟩
        · simp only [insertGo, if_neg h1, if_pos rfl]
          exact hsl.1
        · intro l hl hLB
          simp only [insertGo, if_neg h1, if_pos rfl]
          exact hsl.2 l (by omega) hLB
      · have hsl := insertLoop2_sorted a e ((c, m) :: rest) hms
        have hbLB : MarkersLB b ((c, m) :: rest) := by
          intro p hp
          rcases List.mem_cons.mp hp with hp | hp
          · subst hp; omega
          · have : c < p.1 := hcLB p hp
            omega
        refine ⟨?_, ?_⟩
        · simp only [insertGo, if_neg h1, if_neg h2]
          exact List.pairwise_cons.mpr ⟨hsl.2 b hbe hbLB, hsl.1⟩
        · intro l hl hLB
          simp only [insertGo, if_neg h1, if_neg h2]
          intro p hp
          rcases List.mem_cons.mp hp with hp | hp
          · subst hp; exact hl
          · exact lt_trans hl (hsl.2 b hbe hbLB p hp)

theorem insert_sorted (ms : List (Int × Bool)) (b e : Int) (hbe : b < e)
    (hms : MarkersSorted ms) : MarkersSorted (insert ms b e) :=
  (insertGo_sorted b e hbe false ms hms).1

theorem insertAll_sorted (rs : List (Int × Int)) (h : ∀ r ∈ rs, r.1 < r.2) :
    MarkersSorted (insertAll rs) := by
  have main : ∀ (l : List (Int × Int)) (ms : List (Int × Bool)),
      (∀ r ∈ l, r.1 < r.2) → MarkersSorted ms →
      MarkersSorted (l.foldl (fun m r => insert m r.1 r.2) ms) := by
    intro l
    induction l with
    | nil => intro ms _ hms; exact hms
    | cons r rest ih =>
      intro ms hl hms
      simp only [List.foldl_cons]
      exact ih _ (fun q hq => hl q (by simp [hq]))
        (insert_sorted ms r.1 r.2 (hl r (by simp)) hms)
  exact main rs [] h (by simp [MarkersSorted])

theorem insertLoop2_ne_nil (a : Bool) (e : Int) (ms : List (Int × Bool)) :
    insertLoop2 a e ms ≠ [] := by
  cases ms with
  | nil => simp [insertLoop2]
  | cons q rest =>
    obtain ⟨c, m⟩ := q
    by_cases h1 : c < e
    · simp [insertLoop2, h1]
    · by_cases h2 : c = e <;> simp [insertLoop2, h1, h2]

theorem insertGo_ne_nil (b e : Int) (a : Bool) (ms : List (Int × Bool)) :
    insertGo b e a ms ≠ [] := by
  cases ms with
  | nil => simp [insertGo]
  | cons q rest =>
    obtain ⟨c, m⟩ := q
    by_cases h1 : c < b
    · simp [insertGo, h1]
    · by_cases h2 : c = b
      · simp only [insertGo, if_neg h1, if_pos h2]
        exact insertLoop2_ne_nil a e _
      · simp [insertGo, h1, h2]

theorem insertLoop2_lastFalse (a : Bool) (e : Int) (ms : List (Int × Bool))
    (ha : ms = [] → a = false) (h : LastFalse ms) :
    LastFalse (insertLoop2 a e ms) := by
  induction ms generalizing a with
  | nil =>
    intro p hp
    simp [insertLoop2] at hp
    rw [← hp]
    exact ha rfl
  | cons q rest ih =>
    obtain ⟨c, m⟩ := q
    by_cases h1 : c < e
    · have htail : LastFalse rest := by
        intro p hp
        cases rest with
        | nil => simp at hp
        | cons r rr =>
          exact h p (by rw [List.getLast?_cons_cons]; exact hp)
      have hm : rest = [] → m = false := by
        intro hr
        subst hr
        exact h (c, m) (by simp)
      intro p hp
      simp only [insertLoop2, if_pos h1] at hp
      have := insertLoop2_ne_nil m e rest
      cases hrec : insertLoop2 m e rest with
      | nil => exact absurd hrec this
      | cons r rr =>
        rw [hrec, List.getLast?_cons_cons] at hp
        exact ih m hm htail p (by rw [hrec]; exact hp)
    · by_cases h2 : c = e
      · subst h2
        intro p hp
        simp only [insertLoop2, if_neg h1, if_pos rfl] at hp
        exact h p hp
      · intro p hp
        simp only [insertLoop2, if_neg h1, if_neg h2,
          List.getLast?_cons_cons] at hp
        exact h p hp

theorem insertGo_lastFalse (b e : Int) (a : Bool) (ms : List (Int × Bool))
    (ha : ms = [] → a = false) (h : LastFalse ms) :
    LastFalse (insertGo b e a ms) := by
  induction ms generalizing a with
  | nil =>
    intro p hp
    simp only [insertGo] at hp
    have hne := insertLoop2_ne_nil a e []
    cases hrec : insertLoop2 a e ([] : List (Int × Bool)) with
    | nil => exact absurd hrec hne
    | cons r rr =>
      rw [hrec, List.getLast?_cons_cons] at hp
      exact insertLoop2_lastFalse a e [] ha (by intro p hp; simp at hp) p
        (by rw [hrec]; exact hp)
  | cons q rest ih =>
    obtain ⟨c, m⟩ := q
    have htail : LastFalse rest := by
      intro p hp
      cases rest with
      | nil => simp at hp
      | cons r rr =>
        exact h p (by rw [List.getLast?_cons_cons]; exact hp)
    have hm : rest = [] → m = false := by
      intro hr
      subst hr
      exact h (c, m) (by simp)
    by_cases h1 : c < b
    · intro p hp
      simp only [insertGo, if_pos h1] at hp
      have hne : insertGo b e m rest ≠ [] := insertGo_ne_nil b e m rest
      cases hrec : insertGo b e m rest with
      | nil => exact absurd hrec hne
      | cons r rr =>
        rw [hrec, List.getLast?_cons_cons] at hp
        exact ih m hm htail p (by rw [hrec]; exact hp)
    · by_cases h2 : c = b
      · subst h2
        intro p hp
        simp only [insertGo, if_neg h1, if_pos rfl] at hp
        exact insertLoop2_lastFalse a e ((c, m) :: rest) (by simp) h p hp
      · intro p hp
        simp only [insertGo, if_neg h1, if_neg h2] at hp
        have hne := insertLoop2_ne_nil a e ((c, m) :: rest)
        cases hrec : insertLoop2 a e ((c, m) :: rest) with
        | nil => exact absurd hrec hne
        | cons r rr =>
          rw [hrec, List.getLast?_cons_cons] at hp
          exact insertLoop2_lastFalse a e ((c, m) :: rest) (by simp) h p
            (by rw [hrec]; exact hp)

theorem insert_lastFalse (ms : List (Int × Bool)) (b e : Int)
    (h : LastFalse ms) : LastFalse (insert ms b e) :=
  insertGo_lastFalse b e false ms (fun _ => rfl) h

theorem insertAll_lastFalse (rs : List (Int × Int)) :
    LastFalse (insertAll rs) := by
  have main : ∀ (l : List (Int × Int)) (ms : List (Int × Bool)),
      LastFalse ms → LastFalse (l.foldl (fun m r => insert m r.1 r.2) ms) := by
    intro l
    induction l with
    | nil => intro ms hms; exact hms
    | cons r rest ih =>
      intro ms hms
      simp only [List.foldl_cons]
      exact ih _ (insert_lastFalse ms r.1 r.2 hms)
  exact main rs [] (by intro p hp; simp at hp)

/-! ## Lemmas: interval emission -/

theorem coveredBy_cons (r : Int × Int) (rs : List (Int × Int)) (x : Int) :
    coveredBy (r :: rs) x =
      ((decide (r.1 ≤ x) && decide (x < r.2)) || coveredBy rs x) := by
  simp [coveredBy]

theorem intervalsOf_covered (ms : List (Int × Bool)) (hs : MarkersSorted ms)
    (hl : LastFalse ms) (x : Int) :
    coveredBy (intervalsOf ms) x = inside ms x := by
  induction ms with
  | nil => simp [intervalsOf, coveredBy, inside, insideGo]
  | cons q rest ih =>
    obtain ⟨c, m⟩ := q
    cases rest with
    | nil =>
      cases m with
      | false => simp [intervalsOf, coveredBy, inside, insideGo]
      | true =>
        have : (true : Bool) = false := hl (c, true) (by simp)
        simp at this
    | cons r rr =>
      obtain ⟨d, m2⟩ := r
      have hsr : MarkersSorted ((d, m2) :: rr) := (List.pairwise_cons.mp hs).2
      have hlr : LastFalse ((d, m2) :: rr) := by
        intro p hp
        exact hl p (by rw [List.getLast?_cons_cons]; exact hp)
      have hcd : c < d := (List.pairwise_cons.mp hs).1 (d, m2) (by simp)
      have ihr := ih hsr hlr
      cases m with
      | true =>
        have hunf : intervalsOf ((c, true) :: (d, m2) :: rr) =
            (c, d) :: intervalsOf ((d, m2) :: rr) := rfl
        rw [hunf, coveredBy_cons, ihr]
        simp only [inside, insideGo]
        by_cases h1 : c ≤ x
        · by_cases h2 : d ≤ x
          · have h3 : ¬ x < d := by omega
            simp [h1, h2, h3]
          · have h3 : x < d := by omega
            simp [h1, h2, h3]
        · have h2 : ¬ d ≤ x := by omega
          simp [h1, h2]
      | false =>
        have hunf : intervalsOf ((c, false) :: (d, m2) :: rr) =
            intervalsOf ((d, m2) :: rr) := rfl
        rw [hunf, ihr]
        simp only [inside, insideGo]
        by_cases h1 : c ≤ x
        · simp [h1]
        · have h2 : ¬ d ≤ x := by omega
          simp [h1, h2]

theorem intervalsOf_chars (ms : List (Int × Bool)) :
    ∀ iv ∈ intervalsOf ms,
      iv.1 ∈ ms.map Prod.fst ∧ iv.2 ∈ ms.map Prod.fst := by
  induction ms with
  | nil => simp [intervalsOf]
  | cons q rest ih =>
    obtain ⟨c, m⟩ := q
    cases rest with
    | nil =>
      cases m <;> simp [intervalsOf]
    | cons r rr =>
      obtain ⟨d, m2⟩ := r
      intro iv hiv
      have step : ∀ jv, jv ∈ intervalsOf ((d, m2) :: rr) →
          jv.1 ∈ ((c, m) :: (d, m2) :: rr).map Prod.fst ∧
          jv.2 ∈ ((c, m) :: (d, m2) :: rr).map Prod.fst := by
        intro jv hjv
        have hj := ih jv hjv
        rw [List.map_cons]
        exact ⟨List.mem_cons_of_mem _ hj.1, List.mem_cons_of_mem _ hj.2⟩
      cases m with
      | true =>
        have hunf : intervalsOf ((c, true) :: (d, m2) :: rr) =
            (c, d) :: intervalsOf ((d, m2) :: rr) := rfl
        rw [hunf] at hiv
        rcases List.mem_cons.mp hiv with hiv | hiv
        · subst hiv
          constructor <;> simp
        · exact step iv hiv
      | false =>
        have hunf : intervalsOf ((c, false) :: (d, m2) :: rr) =
            intervalsOf ((d, m2) :: rr) := rfl
        rw [hunf] at hiv
        exact step iv hiv

theorem intervalsOf_shape (ms : List (Int × Bool)) (hs : MarkersSorted ms) :
    (∀ iv ∈ intervalsOf ms, iv.1 < iv.2) ∧
      (intervalsOf ms).Pairwise fun r s => r.2 ≤ s.1 := by
  induction ms with
  | nil => simp [intervalsOf]
  | cons q rest ih =>
    obtain ⟨c, m⟩ := q
    cases rest with
    | nil =>
      cases m <;> simp [intervalsOf]
    | cons r rr =>
      obtain ⟨d, m2⟩ := r
      have hsr : MarkersSorted ((d, m2) :: rr) := (List.pairwise_cons.mp hs).2
      have hcd : c < d := (List.pairwise_cons.mp hs).1 (d, m2) (by simp)
      have ihr := ih hsr
      cases m with
      | true =>
        refine ⟨?_, ?_⟩
        · intro iv hiv
          simp only [intervalsOf] at hiv
          rcases List.mem_cons.mp hiv with hiv | hiv
          · subst hiv; exact hcd
          · exact ihr.1 iv hiv
        · simp only [intervalsOf]
          refine List.pairwise_cons.mpr ⟨?_, ihr.2⟩
          intro s hsmem
          have hchars := intervalsOf_chars ((d, m2) :: rr) s hsmem
          have hlb : ∀ y ∈ ((d, m2) :: rr).map Prod.fst, d ≤ y := by
            intro y hy
            simp only [List.map_cons, List.mem_cons] at hy
            rcases hy with hy | hy
            · omega
            · have := (List.pairwise_cons.mp hsr).1
              simp only [List.mem_map] at hy
              obtain ⟨p, hp, hpy⟩ := hy
              have := this p hp
              omega
          exact hlb s.1 hchars.1
      | false =>
        simp only [intervalsOf]
        exact ihr

/-- C2 (amended): after inserting any finite sequence of nonempty
half-open ranges (in any order) into a cleared range set via insert,
emitting each pairwise interval whose left marker has flag true yields
nonempty pairwise-disjoint ascending intervals whose union equals the
union of the inserted ranges (the coarsest partition of that union
refined at inserted range endpoints; a maximal inside interval may be
emitted split at such an endpoint). -/
theorem c2_rangeset_union_partition (rs : List (Int × Int))
    (h : ∀ r ∈ rs, r.1 < r.2) :
    (∀ x : Int, coveredBy (intervalsOf (insertAll rs)) x = coveredBy rs x) ∧
    (∀ iv ∈ intervalsOf (insertAll rs), iv.1 < iv.2) ∧
    (intervalsOf (insertAll rs)).Pairwise (fun r s => r.2 ≤ s.1) := by
  have hs := insertAll_sorted rs h
  have hl := insertAll_lastFalse rs
  refine ⟨?_, (intervalsOf_shape _ hs).1, (intervalsOf_shape _ hs).2⟩
  intro x
  rw [intervalsOf_covered _ hs hl x, inside_insertAll rs h x]

theorem c2_rangeset_union_partition_witness :
    (∀ r ∈ [((0 : Int), (10 : Int)), ((2 : Int), (5 : Int))], r.1 < r.2) ∧
    ((∀ x : Int,
        coveredBy (intervalsOf (insertAll [((0 : Int), (10 : Int)), ((2 : Int), (5 : Int))])) x =
          coveredBy [((0 : Int), (10 : Int)), ((2 : Int), (5 : Int))] x) ∧
      (∀ iv ∈ intervalsOf (insertAll [((0 : Int), (10 : Int)), ((2 : Int), (5 : Int))]),
        iv.1 < iv.2) ∧
      (intervalsOf (insertAll [((0 : Int), (10 : Int)), ((2 : Int), (5 : Int))])).Pairwise
        (fun r s => r.2 ≤ s.1)) :=
  ⟨by decide, c2_rangeset_union_partition _ (by decide)⟩

/-- C2 fails as stated: inserting [0,10) then [2,5) produces the marker
list with characters 0, 2, 5, 10 whose first three flags are true, so the
emission yields [0,2), [2,5), [5,10); the interval [0,2) is not maximal
in the union [0,10) because its right endpoint 2 is still covered. -/
theorem c2_counterexample :
    ¬ ∀ iv ∈ intervalsOf (insertAll [((0 : Int), (10 : Int)), ((2 : Int), (5 : Int))]),
        MaximalIn [((0 : Int), (10 : Int)), ((2 : Int), (5 : Int))] iv := by
  intro hmax
  have h1 : ((0 : Int), (2 : Int)) ∈
      intervalsOf (insertAll [((0 : Int), (10 : Int)), ((2 : Int), (5 : Int))]) := by
    decide
  have h2 := (hmax _ h1).2.2.2
  exact absurd h2 (by decide)

/-! ## Lemmas: marker characters come from inserted endpoints -/

theorem insertLoop2_chars (a : Bool) (e : Int) (ms : List (Int × Bool)) :
    ∀ x ∈ (insertLoop2 a e ms).map Prod.fst, x = e ∨ x ∈ ms.map Prod.fst := by
  induction ms generalizing a with
  | nil => simp [insertLoop2]
  | cons q rest ih =>
    obtain ⟨c, m⟩ := q
    intro x hx
    by_cases h1 : c < e
    · simp only [insertLoop2, if_pos h1, List.map_cons, List.mem_cons] at hx
      rcases hx with hx | hx
      · right
        simp [hx]
      · rcases ih m x hx with hx | hx
        · exact Or.inl hx
        · right
          rw [List.map_cons]
          exact List.mem_cons_of_mem _ hx
    · by_cases h2 : c = e
      · subst h2
        simp only [insertLoop2, if_neg h1, if_pos rfl] at hx
        exact Or.inr hx
      · simp only [insertLoop2, if_neg h1, if_neg h2, List.map_cons,
          List.mem_cons] at hx
        rcases hx with hx | hx
        · exact Or.inl hx
        · right
          rw [List.map_cons, List.mem_cons]
          exact hx

theorem insertGo_chars (b e : Int) (a : Bool) (ms : List (Int × Bool)) :
    ∀ x ∈ (insertGo b e a ms).map Prod.fst,
      x = b ∨ x = e ∨ x ∈ ms.map Prod.fst := by
  induction ms generalizing a with
  | nil =>
    intro x hx
    simp [insertGo, insertLoop2] at hx
    tauto
  | cons q rest ih =>
    obtain ⟨c, m⟩ := q
    intro x hx
    by_cases h1 : c < b
    · simp only [insertGo, if_pos h1, List.map_cons, List.mem_cons] at hx
      rcases hx with hx | hx
      · right; right
        simp [hx]
      · rcases ih m x hx with hx | hx | hx
        · exact Or.inl hx
        · exact Or.inr (Or.inl hx)
        · right; right
          rw [List.map_cons]
          exact List.mem_cons_of_mem _ hx
    · by_cases h2 : c = b
      · simp only [insertGo, if_neg h1, if_pos h2] at hx
        rcases insertLoop2_chars a e ((c, m) :: rest) x hx with hx | hx
        · exact Or.inr (Or.inl hx)
        · exact Or.inr (Or.inr hx)
      · simp only [insertGo, if_neg h1, if_neg h2, List.map_cons,
          List.mem_cons] at hx
        rcases hx with hx | hx
        · exact Or.inl hx
        · rcases insertLoop2_chars a e ((c, m) :: rest) x hx with hx | hx
          · exact Or.inr (Or.inl hx)
          · exact Or.inr (Or.inr hx)

theorem insert_chars (ms : List (Int × Bool)) (b e : Int) :
    ∀ x ∈ (insert ms b e).map Prod.fst, x = b ∨ x = e ∨ x ∈ ms.map Prod.fst :=
  insertGo_chars b e false ms

theorem itemRanges_chars (nodes : List RegexNode) (it : List Nat) :
    ∀ (ms : List (Int × Bool)), ∀ x ∈ (itemRanges nodes ms it).map Prod.fst,
      (∃ p ∈ it, ¬ (getNode nodes p).isEnd = true ∧
        (x = (getNode nodes p).beginChar ∨ x = (getNode nodes p).endChar)) ∨
      x ∈ ms.map Prod.fst := by
  induction it with
  | nil =>
    intro ms x hx
    exact Or.inr hx
  | cons p it2 ih =>
    intro ms x hx
    rw [itemRanges, List.foldl_cons] at hx
    rcases ih (rangeStep nodes ms p) x hx with h | h
    · left
      obtain ⟨p2, hp2, hrest⟩ := h
      exact ⟨p2, List.mem_cons_of_mem _ hp2, hrest⟩
    · by_cases hend : (getNode nodes p).isEnd
      · rw [rangeStep, if_pos hend] at h
        exact Or.inr h
      · rw [rangeStep, if_neg hend] at h
        rcases insert_chars ms _ _ x h with hx1 | hx1 | hx1
        · exact Or.inl ⟨p, by simp, by simpa using hend, Or.inl hx1⟩
        · exact Or.inl ⟨p, by simp, by simpa using hend, Or.inr hx1⟩
        · exact Or.inr hx1

theorem computeRanges_chars (nodes : List RegexNode) (items : List (List Nat)) :
    ∀ x ∈ (computeRanges nodes items).map Prod.fst,
      ∃ it ∈ items, ∃ p ∈ it, ¬ (getNode nodes p).isEnd = true ∧
        (x = (getNode nodes p).beginChar ∨ x = (getNode nodes p).endChar) := by
  have main : ∀ (l : List (List Nat)) (ms : List (Int × Bool)),
      ∀ x ∈ (l.foldl (itemRanges nodes) ms).map Prod.fst,
        (∃ it ∈ l, ∃ p ∈ it, ¬ (getNode nodes p).isEnd = true ∧
          (x = (getNode nodes p).beginChar ∨ x = (getNode nodes p).endChar)) ∨
        x ∈ ms.map Prod.fst := by
    intro l
    induction l with
    | nil =>
      intro ms x hx
      exact Or.inr hx
    | cons it l2 ih =>
      intro ms x hx
      rw [List.foldl_cons] at hx
      rcases ih (itemRanges nodes ms it) x hx with h | h
      · left
        obtain ⟨it2, hit2, hrest⟩ := h
        exact ⟨it2, List.mem_cons_of_mem _ hit2, hrest⟩
      · rcases itemRanges_chars nodes it ms x h with h2 | h2
        · left
          obtain ⟨p, hp, hrest⟩ := h2
          exact ⟨it, by simp, p, hp, hrest⟩
        · exact Or.inr h2
  intro x hx
  rcases main items [] x (by rw [computeRanges] at hx; exact hx) with h | h
  · exact h
  · simp at h

theorem walkRanges_chars_aux (n : Nat) :
    ∀ (ms : List (Int × Bool)), ms.length ≤ n → ∀ iv ∈ walkRanges ms,
      iv.1 ∈ ms.map Prod.fst ∧ iv.2 ∈ ms.map Prod.fst := by
  induction n with
  | zero =>
    intro ms hlen iv hiv
    rw [Nat.le_zero, List.length_eq_zero] at hlen
    subst hlen
    simp [walkRanges] at hiv
  | succ n ih =>
    intro ms hlen iv hiv
    rcases ms with _ | ⟨⟨c, m⟩, _ | ⟨⟨d, m2⟩, rr⟩⟩
    · simp [walkRanges] at hiv
    · simp [walkRanges] at hiv
    · have hunf : walkRanges ((c, m) :: (d, m2) :: rr) =
          (c, d) :: (if m2 then walkRanges ((d, m2) :: rr) else walkRanges rr) :=
        rfl
      rw [hunf] at hiv
      rcases List.mem_cons.mp hiv with hiv | hiv
      · subst hiv
        constructor <;> simp
      · cases m2 with
        | true =>
          rw [if_pos rfl] at hiv
          have hlen2 : ((d, true) :: rr).length ≤ n := by
            simp only [List.length_cons] at hlen ⊢
            omega
          have := ih ((d, true) :: rr) hlen2 iv hiv
          rw [List.map_cons]
          exact ⟨List.mem_cons_of_mem _ this.1, List.mem_cons_of_mem _ this.2⟩
        | false =>
          rw [if_neg (by simp)] at hiv
          have hlen2 : rr.length ≤ n := by
            simp only [List.length_cons] at hlen
            omega
          have := ih rr hlen2 iv hiv
          rw [List.map_cons, List.map_cons]
          exact ⟨List.mem_cons_of_mem _ (List.mem_cons_of_mem _ this.1),
            List.mem_cons_of_mem _ (List.mem_cons_of_mem _ this.2)⟩

theorem walkRanges_chars (ms : List (Int × Bool)) :
    ∀ iv ∈ walkRanges ms,
      iv.1 ∈ ms.map Prod.fst ∧ iv.2 ∈ ms.map Prod.fst :=
  walkRanges_chars_aux ms.length ms le_rfl

/-- C9: every half-open range handed to goto_ by the range walk of
generate_states has its begin and end characters among the begin and end
characters of the non-end nodes of the state's items; hence when those
node characters avoid the two sentinel values, no call to goto_ ever
receives a sentinel as begin or end. -/
theorem c9_goto_rejects_sentinels (nodes : List RegexNode)
    (items : List (List Nat)) (sb se : Int)
    (h : ∀ it ∈ items, ∀ p ∈ it, ¬ (getNode nodes p).isEnd = true →
        (getNode nodes p).beginChar ≠ sb ∧ (getNode nodes p).beginChar ≠ se ∧
        (getNode nodes p).endChar ≠ sb ∧ (getNode nodes p).endChar ≠ se) :
    ∀ r ∈ walkRanges (computeRanges nodes items),
      r.1 ≠ sb ∧ r.1 ≠ se ∧ r.2 ≠ sb ∧ r.2 ≠ se := by
  intro r hr
  have hchars := walkRanges_chars (computeRanges nodes items) r hr
  have h1 := computeRanges_chars nodes items r.1 hchars.1
  have h2 := computeRanges_chars nodes items r.2 hchars.2
  obtain ⟨it1, hit1, p1, hp1, hend1, hc1⟩ := h1
  obtain ⟨it2, hit2, p2, hp2, hend2, hc2⟩ := h2
  have hs1 := h it1 hit1 p1 hp1 hend1
  have hs2 := h it2 hit2 p2 hp2 hend2
  refine ⟨?_, ?_, ?_, ?_⟩
  · rcases hc1 with hc | hc <;> rw [hc] <;> tauto
  · rcases hc1 with hc | hc <;> rw [hc] <;> tauto
  · rcases hc2 with hc | hc <;> rw [hc] <;> tauto
  · rcases hc2 with hc | hc <;> rw [hc] <;> tauto

theorem c9_goto_rejects_sentinels_witness :
    (∀ it ∈ [[0]], ∀ p ∈ it,
      ¬ (getNode [⟨97, 98, false, none, [1]⟩,
            ⟨0, 0, true, some ⟨1, 1, 100⟩, []⟩] p).isEnd = true →
        (getNode [⟨97, 98, false, none, [1]⟩,
            ⟨0, 0, true, some ⟨1, 1, 100⟩, []⟩] p).beginChar ≠ (-1 : Int) ∧
        (getNode [⟨97, 98, false, none, [1]⟩,
            ⟨0, 0, true, some ⟨1, 1, 100⟩, []⟩] p).beginChar ≠ (-2 : Int) ∧
        (getNode [⟨97, 98, false, none, [1]⟩,
            ⟨0, 0, true, some ⟨1, 1, 100⟩, []⟩] p).endChar ≠ (-1 : Int) ∧
        (getNode [⟨97, 98, false, none, [1]⟩,
            ⟨0, 0, true, some ⟨1, 1, 100⟩, []⟩] p).endChar ≠ (-2 : Int)) ∧
    (∀ r ∈ walkRanges (computeRanges
        [⟨97, 98, false, none, [1]⟩, ⟨0, 0, true, some ⟨1, 1, 100⟩, []⟩] [[0]]),
      r.1 ≠ (-1 : Int) ∧ r.1 ≠ (-2 : Int) ∧ r.2 ≠ (-1 : Int) ∧ r.2 ≠ (-2 : Int)) :=
  ⟨by decide, c9_goto_rejects_sentinels _ _ _ _ (by decide)⟩

/-! ## Lemmas: accept-symbol selection -/

theorem symStepToken_pair (s : SymSel) (t : LexerToken) :
    ((symStepToken s t).type, (symStepToken s t).line) =
      selPair (s.type, s.line) (tokenPair t) := by
  by_cases h1 : t.type > s.type
  · simp [symStepToken, selPair, tokenPair, h1]
  · by_cases h2 : t.type = s.type ∧ t.line < s.line
    · simp [symStepToken, selPair, tokenPair, h1, h2]
    · by_cases h3 : t.type = s.type ∧ t.line = s.line
      · simp [symStepToken, selPair, tokenPair, h1, h2, h3]
      · simp [symStepToken, selPair, tokenPair, h1, h2, h3]

theorem scanTokens_singleton (s : SymSel) (t : LexerToken) :
    scanTokens s [t] = symStepToken s t := rfl

theorem scanTokens_append (s : SymSel) (u v : List LexerToken) :
    scanTokens s (u ++ v) = scanTokens (scanTokens s u) v := by
  simp [scanTokens, List.foldl_append]

theorem scanNodes_eq_scanTokens (ns : List RegexNode) (s : SymSel) :
    scanNodes s ns = scanTokens s (nodeTokens ns) := by
  induction ns generalizing s with
  | nil => rfl
  | cons n ns ih =>
    by_cases hend : n.isEnd
    · cases htok : n.token with
      | none =>
        simp [scanNodes, scanTokens, nodeTokens, List.filterMap_cons, symStep,
          hend, htok] at ih ⊢
        exact ih s
      | some t =>
        simp [scanNodes, scanTokens, nodeTokens, List.filterMap_cons, symStep,
          hend, htok] at ih ⊢
        exact ih (symStepToken s t)
    · simp [scanNodes, scanTokens, nodeTokens, List.filterMap_cons, symStep,
        hend] at ih ⊢
      exact ih s

theorem generate_symbol_eq_scanTokens (items : List (List RegexNode)) :
    generate_symbol_for_state items = scanTokens initSymSel (endTokens items) := by
  have main : ∀ (l : List (List RegexNode)) (s : SymSel),
      l.foldl scanNodes s = scanTokens s ((l.map nodeTokens).flatten) := by
    intro l
    induction l with
    | nil => intro s; rfl
    | cons ns l2 ih =>
      intro s
      rw [List.foldl_cons, ih (scanNodes s ns), List.map_cons, List.flatten_cons,
        scanTokens_append, scanNodes_eq_scanTokens]
  exact main items initSymSel

theorem pairLe_refl (p : Nat × Int) : pairLe p p := by
  simp [pairLe]

theorem pairLe_trans {p q r : Nat × Int} (h1 : pairLe p q) (h2 : pairLe q r) :
    pairLe p r := by
  simp only [pairLe] at h1 h2 ⊢
  omega

theorem pairLe_antisymm {p q : Nat × Int} (h1 : pairLe p q) (h2 : pairLe q p) :
    p = q := by
  obtain ⟨p1, p2⟩ := p
  obtain ⟨q1, q2⟩ := q
  simp only [pairLe, Prod.mk.injEq] at h1 h2 ⊢
  omega

theorem pairLe_selPair_left (p q : Nat × Int) : pairLe p (selPair p q) := by
  obtain ⟨p1, p2⟩ := p
  obtain ⟨q1, q2⟩ := q
  dsimp only [selPair]
  split_ifs <;> dsimp only [pairLe] <;> omega

theorem pairLe_selPair_right (p q : Nat × Int) : pairLe q (selPair p q) := by
  obtain ⟨p1, p2⟩ := p
  obtain ⟨q1, q2⟩ := q
  dsimp only [selPair]
  split_ifs <;> dsimp only [pairLe] <;> omega

theorem selPair_left_comm (p q r : Nat × Int) :
    selPair (selPair p q) r = selPair (selPair p r) q := by
  obtain ⟨p1, p2⟩ := p
  obtain ⟨q1, q2⟩ := q
  obtain ⟨r1, r2⟩ := r
  dsimp only [selPair]
  split_ifs <;> (try rfl) <;> simp only [Prod.mk.injEq] <;> omega

theorem bestFold_le (ts : List LexerToken) (p0 : Nat × Int) :
    pairLe p0 (ts.foldl (fun p t => selPair p (tokenPair t)) p0) ∧
    ∀ u ∈ ts, pairLe (tokenPair u)
      (ts.foldl (fun p t => selPair p (tokenPair t)) p0) := by
  induction ts generalizing p0 with
  | nil => exact ⟨pairLe_refl p0, by simp⟩
  | cons t ts ih =>
    have h0 := ih (selPair p0 (tokenPair t))
    refine ⟨?_, ?_⟩
    · rw [List.foldl_cons]
      exact pairLe_trans (pairLe_selPair_left p0 (tokenPair t)) h0.1
    · intro u hu
      rw [List.foldl_cons]
      rcases List.mem_cons.mp hu with hu | hu
      · subst hu
        exact pairLe_trans (pairLe_selPair_right p0 (tokenPair u)) h0.1
      · exact h0.2 u hu

theorem bestFold_append_le (u v : List LexerToken) (p0 : Nat × Int) :
    pairLe (u.foldl (fun p t => selPair p (tokenPair t)) p0)
      ((u ++ v).foldl (fun p t => selPair p (tokenPair t)) p0) := by
  rw [List.foldl_append]
  exact (bestFold_le v _).1

theorem scanTokens_pair (ts : List LexerToken) (s : SymSel) :
    ((scanTokens s ts).type, (scanTokens s ts).line) =
      ts.foldl (fun p t => selPair p (tokenPair t)) (s.type, s.line) := by
  induction ts generalizing s with
  | nil => rfl
  | cons t ts ih =>
    rw [scanTokens, List.foldl_cons, List.foldl_cons]
    have h2 := ih (symStepToken s t)
    rw [scanTokens] at h2
    rw [h2, symStepToken_pair]

theorem scanTokens_sel (ts : List LexerToken)
    (h : ∀ t ∈ ts, t.line < INT_MAX) :
    (ts = [] ∧ scanTokens initSymSel ts = initSymSel) ∨
    (∃ t l1 l2, ts = l1 ++ t :: l2 ∧
      (scanTokens initSymSel ts).token = some t ∧
      t.type = (scanTokens initSymSel ts).type ∧
      t.line = (scanTokens initSymSel ts).line) := by
  induction ts using List.reverseRecOn with
  | nil => exact Or.inl ⟨rfl, rfl⟩
  | append_singleton l t ih =>
    have hl : ∀ u ∈ l, u.line < INT_MAX := fun u hu => h u (by simp [hu])
    have ht : t.line < INT_MAX := h t (by simp)
    rw [scanTokens_append, scanTokens_singleton]
    by_cases hb1 : t.type > (scanTokens initSymSel l).type
    · right
      exact ⟨t, l, [], by simp, by simp [symStepToken, hb1],
        by simp [symStepToken, hb1], by simp [symStepToken, hb1]⟩
    · by_cases hb2 : t.type = (scanTokens initSymSel l).type ∧
          t.line < (scanTokens initSymSel l).line
      · right
        exact ⟨t, l, [], by simp, by simp [symStepToken, hb1, hb2],
          by simp [symStepToken, hb1, hb2], by simp [symStepToken, hb1, hb2]⟩
      · rcases ih hl with ⟨hnil, hs⟩ | ⟨t1, l1, l2, hsplit, htok, hty, hln⟩
        · subst hnil
          rw [hs] at hb1 hb2
          simp [initSymSel] at hb1 hb2
          exfalso
          omega
        · right
          refine ⟨t1, l1, l2 ++ [t], by simp [hsplit], ?_, ?_, ?_⟩
          · by_cases hb3 : t.type = (scanTokens initSymSel l).type ∧
                t.line = (scanTokens initSymSel l).line
            · simpa [symStepToken, hb1, hb2, hb3] using htok
            · simpa [symStepToken, hb1, hb2, hb3] using htok
          · by_cases hb3 : t.type = (scanTokens initSymSel l).type ∧
                t.line = (scanTokens initSymSel l).line
            · simpa [symStepToken, hb1, hb2, hb3] using hty
            · simpa [symStepToken, hb1, hb2, hb3] using hty
          · by_cases hb3 : t.type = (scanTokens initSymSel l).type ∧
                t.line = (scanTokens initSymSel l).line
            · simpa [symStepToken, hb1, hb2, hb3] using hln
            · simpa [symStepToken, hb1, hb2, hb3] using hln

/-- C1: the accepting symbol chosen by generate_symbol_for_state is the
symbol of a token that has maximal type among the end tokens of the
state's items, and minimal line among those of maximal type; the result's
token, type, line and symbol are that token's, and the selected (type,
line) pair is unchanged under any permutation of the visitation order of
the end tokens. -/
theorem c1_symbol_priority (items : List (List RegexNode))
    (h : ∀ t ∈ endTokens items, t.line < INT_MAX)
    (hne : endTokens items ≠ []) :
    ∃ t, t ∈ endTokens items ∧
      (generate_symbol_for_state items).token = some t ∧
      stateSymbol items = some t.symbol ∧
      (∀ u ∈ endTokens items, u.type ≤ t.type) ∧
      (∀ u ∈ endTokens items, u.type = t.type → t.line ≤ u.line) ∧
      (∀ items2 : List (List RegexNode),
        (endTokens items2).Perm (endTokens items) →
        (generate_symbol_for_state items2).type = t.type ∧
        (generate_symbol_for_state items2).line = t.line) := by
  rcases scanTokens_sel (endTokens items) h with ⟨hnil, _⟩ | ⟨t, l1, l2, hsplit, htok, hty, hln⟩
  · exact absurd hnil hne
  · refine ⟨t, by rw [hsplit]; simp, ?_, ?_, ?_, ?_, ?_⟩
    · rw [generate_symbol_eq_scanTokens]
      exact htok
    · rw [stateSymbol, generate_symbol_eq_scanTokens, htok]
      rfl
    · intro u hu
      have hle := (bestFold_le (endTokens items) (0, INT_MAX)).2 u hu
      have hpair := scanTokens_pair (endTokens items) initSymSel
      have hinit : ((initSymSel.type : Nat), initSymSel.line) = ((0 : Nat), INT_MAX) := rfl
      rw [hinit] at hpair
      rw [← hpair] at hle
      simp only [pairLe, tokenPair] at hle
      omega
    · intro u hu huty
      have hle := (bestFold_le (endTokens items) (0, INT_MAX)).2 u hu
      have hpair := scanTokens_pair (endTokens items) initSymSel
      have hinit : ((initSymSel.type : Nat), initSymSel.line) = ((0 : Nat), INT_MAX) := rfl
      rw [hinit] at hpair
      rw [← hpair] at hle
      simp only [pairLe, tokenPair] at hle
      omega
    · intro items2 hperm
      have hpair := scanTokens_pair (endTokens items) initSymSel
      have hpair2 := scanTokens_pair (endTokens items2) initSymSel
      have heq : (endTokens items2).foldl (fun p t => selPair p (tokenPair t))
            (initSymSel.type, initSymSel.line) =
          (endTokens items).foldl (fun p t => selPair p (tokenPair t))
            (initSymSel.type, initSymSel.line) :=
        hperm.foldl_eq'
          (fun x _ y _ z => selPair_left_comm z (tokenPair x) (tokenPair y)) _
      rw [generate_symbol_eq_scanTokens]
      have hfin : ((scanTokens initSymSel (endTokens items2)).type,
          (scanTokens initSymSel (endTokens items2)).line) =
          ((scanTokens initSymSel (endTokens items)).type,
          (scanTokens initSymSel (endTokens items)).line) := by
        rw [hpair, hpair2, heq]
      have h1 := congrArg Prod.fst hfin
      have h2 := congrArg Prod.snd hfin
      simp only at h1 h2
      rw [h1, h2, ← hty, ← hln]
      exact ⟨rfl, rfl⟩

theorem c1_symbol_priority_witness :
    (∀ t ∈ endTokens [[⟨0, 0, true, some ⟨1, 5, 11⟩, []⟩,
        ⟨0, 0, true, some ⟨2, 7, 22⟩, []⟩]], t.line < INT_MAX) ∧
    (endTokens [[⟨0, 0, true, some ⟨1, 5, 11⟩, []⟩,
        ⟨0, 0, true, some ⟨2, 7, 22⟩, []⟩]] ≠ []) ∧
    (∃ t, t ∈ endTokens [[⟨0, 0, true, some ⟨1, 5, 11⟩, []⟩,
          ⟨0, 0, true, some ⟨2, 7, 22⟩, []⟩]] ∧
      (generate_symbol_for_state [[⟨0, 0, true, some ⟨1, 5, 11⟩, []⟩,
          ⟨0, 0, true, some ⟨2, 7, 22⟩, []⟩]]).token = some t ∧
      stateSymbol [[⟨0, 0, true, some ⟨1, 5, 11⟩, []⟩,
          ⟨0, 0, true, some ⟨2, 7, 22⟩, []⟩]] = some t.symbol ∧
      (∀ u ∈ endTokens [[⟨0, 0, true, some ⟨1, 5, 11⟩, []⟩,
          ⟨0, 0, true, some ⟨2, 7, 22⟩, []⟩]], u.type ≤ t.type) ∧
      (∀ u ∈ endTokens [[⟨0, 0, true, some ⟨1, 5, 11⟩, []⟩,
          ⟨0, 0, true, some ⟨2, 7, 22⟩, []⟩]], u.type = t.type → t.line ≤ u.line) ∧
      (∀ items2 : List (List RegexNode),
        (endTokens items2).Perm (endTokens [[⟨0, 0, true, some ⟨1, 5, 11⟩, []⟩,
          ⟨0, 0, true, some ⟨2, 7, 22⟩, []⟩]]) →
        (generate_symbol_for_state items2).type = t.type ∧
        (generate_symbol_for_state items2).line = t.line)) :=
  ⟨by decide, by decide, c1_symbol_priority _ (by decide) (by decide)⟩

/-! ## Lemmas: the lexicographic orders are strict total orders -/

theorem lexLt_connex {α : Type} (lt : α → α → Bool)
    (hconn : ∀ x y, ¬ lt x y = true → ¬ lt y x = true → x = y) :
    ∀ a b : List α, ¬ lexLt lt a b = true → ¬ lexLt lt b a = true → a = b := by
  intro a
  induction a with
  | nil =>
    intro b h1 h2
    cases b with
    | nil => rfl
    | cons y ys => exact absurd (by simp [lexLt]) h1
  | cons x xs ih =>
    intro b h1 h2
    cases b with
    | nil => exact absurd (by simp [lexLt]) h2
    | cons y ys =>
      by_cases hxy : lt x y = true
      · exact absurd (by simp [lexLt, hxy]) h1
      · by_cases hyx : lt y x = true
        · exact absurd (by simp [lexLt, hyx]) h2
        · have hx : x = y := hconn x y hxy hyx
          subst hx
          have hxs : xs = ys := ih ys (by simpa [lexLt, hxy] using h1)
            (by simpa [lexLt, hxy] using h2)
          rw [hxs]

theorem lexLt_trans {α : Type} (lt : α → α → Bool)
    (htr : ∀ x y z, lt x y = true → lt y z = true → lt x z = true)
    (hconn : ∀ x y, ¬ lt x y = true → ¬ lt y x = true → x = y) :
    ∀ a b c : List α, lexLt lt a b = true → lexLt lt b c = true →
      lexLt lt a c = true := by
  intro a
  induction a with
  | nil =>
    intro b c h1 h2
    cases b with
    | nil => simp [lexLt] at h1
    | cons y ys =>
      cases c with
      | nil => simp [lexLt] at h2
      | cons z zs => simp [lexLt]
  | cons x xs ih =>
    intro b c h1 h2
    cases b with
    | nil => simp [lexLt] at h1
    | cons y ys =>
      cases c with
      | nil => simp [lexLt] at h2
      | cons z zs =>
        by_cases hxy : lt x y = true
        · by_cases hyz : lt y z = true
          · simp [lexLt, htr x y z hxy hyz]
          · by_cases hzy : lt z y = true
            · simp [lexLt, hyz, hzy] at h2
            · have hy : y = z := hconn y z hyz hzy
              subst hy
              simp [lexLt, hxy]
        · by_cases hyx : lt y x = true
          · simp [lexLt, hxy, hyx] at h1
          · have hxy2 : x = y := hconn x y hxy hyx
            subst hxy2
            have h1b : lexLt lt xs ys = true := by simpa [lexLt, hxy] using h1
            by_cases hxz : lt x z = true
            · simp [lexLt, hxz]
            · by_cases hzx : lt z x = true
              · simp [lexLt, hxz, hzx] at h2
              · have hx2 : x = z := hconn x z hxz hzx
                subst hx2
                have h2b : lexLt lt ys zs = true := by
                  simpa [lexLt, hxz] using h2
                simp [lexLt, hxz, ih ys zs h1b h2b]

theorem itemLt_connex (a b : List Nat) (h1 : ¬ itemLt a b = true)
    (h2 : ¬ itemLt b a = true) : a = b :=
  lexLt_connex _ (fun x y hx hy => by simp at hx hy; omega) a b h1 h2

theorem itemLt_trans (a b c : List Nat) (h1 : itemLt a b = true)
    (h2 : itemLt b c = true) : itemLt a c = true :=
  lexLt_trans _ (fun x y z hx hy => by simp at hx hy ⊢; omega)
    (fun x y hx hy => by simp at hx hy; omega) a b c h1 h2

theorem itemsLt_connex (a b : List (List Nat)) (h1 : ¬ itemsLt a b = true)
    (h2 : ¬ itemsLt b a = true) : a = b :=
  lexLt_connex itemLt itemLt_connex a b h1 h2

theorem itemsLt_trans (a b c : List (List Nat)) (h1 : itemsLt a b = true)
    (h2 : itemsLt b c = true) : itemsLt a c = true :=
  lexLt_trans itemLt itemLt_trans itemLt_connex a b c h1 h2

/-! ## Lemmas: state-list operations -/

theorem mem_markProcessed (states : List LexerState) (sid : Nat) :
    ∀ s2 ∈ markProcessed states sid, ∃ s, s ∈ states ∧ s2.items = s.items ∧
      s2.symbol = s.symbol ∧ s2.sid = s.sid := by
  intro s2 hs2
  rw [markProcessed] at hs2
  obtain ⟨s, hs, hmap⟩ := List.mem_map.mp hs2
  by_cases h : s.sid = sid
  · rw [if_pos h] at hmap
    exact ⟨s, hs, by rw [← hmap], by rw [← hmap], by rw [← hmap]⟩
  · rw [if_neg h] at hmap
    exact ⟨s, hs, by rw [← hmap], by rw [← hmap], by rw [← hmap]⟩

theorem mem_addTransitionTo (states : List LexerState) (sid : Nat)
    (tr : Int × Int × Nat) :
    ∀ s2 ∈ addTransitionTo states sid tr, ∃ s, s ∈ states ∧
      s2.items = s.items ∧ s2.symbol = s.symbol ∧ s2.sid = s.sid := by
  intro s2 hs2
  rw [addTransitionTo] at hs2
  obtain ⟨s, hs, hmap⟩ := List.mem_map.mp hs2
  by_cases h : s.sid = sid
  · rw [if_pos h] at hmap
    exact ⟨s, hs, by rw [← hmap], by rw [← hmap], by rw [← hmap]⟩
  · rw [if_neg h] at hmap
    exact ⟨s, hs, by rw [← hmap], by rw [← hmap], by rw [← hmap]⟩

theorem mem_insertStateSorted (s : LexerState) (states : List LexerState) :
    ∀ s2 ∈ insertStateSorted s states, s2 = s ∨ s2 ∈ states := by
  induction states with
  | nil =>
    intro s2 hs2
    rw [insertStateSorted] at hs2
    exact Or.inl (by simpa using hs2)
  | cons t ts ih =>
    intro s2 hs2
    rw [insertStateSorted] at hs2
    by_cases h1 : itemsLt s.items t.items = true
    · rw [if_pos h1] at hs2
      rcases List.mem_cons.mp hs2 with h | h
      · exact Or.inl h
      · exact Or.inr h
    · rw [if_neg h1] at hs2
      rcases List.mem_cons.mp hs2 with h | h
      · exact Or.inr (by simp [h])
      · rcases ih s2 h with h | h
        · exact Or.inl h
        · exact Or.inr (List.mem_cons_of_mem _ h)

theorem insertStateSorted_pairwise (s : LexerState) (states : List LexerState)
    (hsorted : states.Pairwise fun a b => itemsLt a.items b.items = true)
    (hne : ∀ t ∈ states, t.items ≠ s.items) :
    (insertStateSorted s states).Pairwise
      fun a b => itemsLt a.items b.items = true := by
  induction states with
  | nil => simp [insertStateSorted]
  | cons t ts ih =>
    rw [insertStateSorted]
    obtain ⟨hts, hsort⟩ := List.pairwise_cons.mp hsorted
    by_cases h1 : itemsLt s.items t.items = true
    · rw [if_pos h1]
      refine List.pairwise_cons.mpr ⟨?_, hsorted⟩
      intro u hu
      rcases List.mem_cons.mp hu with hu | hu
      · subst hu
        exact h1
      · exact itemsLt_trans _ _ _ h1 (hts u hu)
    · rw [if_neg h1]
      refine List.pairwise_cons.mpr
        ⟨?_, ih hsort (fun u hu => hne u (List.mem_cons_of_mem _ hu))⟩
      intro u hu
      rcases mem_insertStateSorted s ts u hu with hu | hu
      · subst hu
        by_cases h3 : itemsLt t.items u.items = true
        · exact h3
        · exact absurd (itemsLt_connex _ _ h1 h3).symm (hne t (by simp))
      · exact hts u hu

theorem pairwise_fieldMap {f : LexerState → LexerState}
    (hf : ∀ s, (f s).items = s.items) (states : List LexerState)
    (h : states.Pairwise fun a b => itemsLt a.items b.items = true) :
    (states.map f).Pairwise fun a b => itemsLt a.items b.items = true := by
  refine List.Pairwise.map f ?_ h
  intro a b hab
  rw [hf a, hf b]
  exact hab

theorem markProcessed_pairwise (states : List LexerState) (sid : Nat)
    (h : states.Pairwise fun a b => itemsLt a.items b.items = true) :
    (markProcessed states sid).Pairwise
      fun a b => itemsLt a.items b.items = true := by
  rw [markProcessed]
  refine pairwise_fieldMap ?_ states h
  intro s
  by_cases hs : s.sid = sid <;> simp [hs]

theorem addTransitionTo_pairwise (states : List LexerState) (sid : Nat)
    (tr : Int × Int × Nat)
    (h : states.Pairwise fun a b => itemsLt a.items b.items = true) :
    (addTransitionTo states sid tr).Pairwise
      fun a b => itemsLt a.items b.items = true := by
  rw [addTransitionTo]
  refine pairwise_fieldMap ?_ states h
  intro s
  by_cases hs : s.sid = sid <;> simp [hs]

/-! ## Lemmas: the trace lifecycle invariant -/

theorem NoIAP_append (l1 l2 : List Event) (h1 : NoIAP l1) (h2 : NoIAP l2)
    (hcross : ∀ sid, Event.setProcessed sid ∈ l1 →
      ∀ it, Event.addItem sid it ∉ l2) :
    NoIAP (l1 ++ l2) := by
  intro u sid v heq it hmem
  rcases List.append_eq_append_iff.mp heq with ⟨a, _, ha2⟩ | ⟨c, hc1, hc2⟩
  · exact h2 a sid v ha2 it hmem
  · cases c with
    | nil =>
      simp only [List.nil_append] at hc2
      exact h2 [] sid v hc2.symm it hmem
    | cons x c2 =>
      rw [List.cons_append, List.cons.injEq] at hc2
      obtain ⟨hx, hv⟩ := hc2
      rw [hv] at hmem
      rcases List.mem_append.mp hmem with hm | hm
      · exact h1 u sid c2 (by rw [hc1, ← hx]) it hm
      · exact hcross sid (by rw [hc1, ← hx]; simp) it hm

theorem NoIAP_of_sids (n : Nat) (tr : List Event)
    (hsp : ∀ sid, Event.setProcessed sid ∈ tr → sid < n)
    (hai : ∀ sid it, Event.addItem sid it ∈ tr → n ≤ sid) :
    NoIAP tr := by
  intro u sid v heq it hmem
  have h1 : Event.setProcessed sid ∈ tr := by
    rw [heq]
    simp
  have h2 : Event.addItem sid it ∈ tr := by
    rw [heq]
    simp only [List.mem_append, List.mem_cons]
    exact Or.inr (Or.inr hmem)
  have ha := hsp sid h1
  have hb := hai sid it h2
  omega

theorem NoIAP_of_no_sp (tr : List Event)
    (h : ∀ sid, Event.setProcessed sid ∉ tr) : NoIAP tr := by
  intro u sid v heq it _
  exact h sid (by rw [heq]; simp)

theorem NoIAP_singleton (ev : Event) : NoIAP [ev] := by
  intro u sid v heq it hmem
  cases u with
  | nil =>
    rw [List.nil_append, List.cons.injEq] at heq
    rw [← heq.2] at hmem
    simp at hmem
  | cons x xs =>
    rw [List.cons_append, List.cons.injEq] at heq
    exact absurd heq.2.symm (by simp)

theorem indexEvents_kinds (ss : List LexerState) :
    ∀ i, ∀ e ∈ indexEvents i ss,
      (∀ sid it, e ≠ Event.addItem sid it) ∧
      (∀ sid, e ≠ Event.setProcessed sid) := by
  induction ss with
  | nil =>
    intro i e he
    simp [indexEvents] at he
  | cons s ss ih =>
    intro i e he
    rw [indexEvents] at he
    rcases List.mem_cons.mp he with he | he
    · subst he
      exact ⟨fun sid it h => Event.noConfusion h, fun sid h => Event.noConfusion h⟩
    · exact ih (i + 1) e he

theorem processRange_inv (nodes : List RegexNode) (sid : Nat)
    (its : List (List Nat)) (g : GenSt) (b e : Int)
    (hsid : ∀ s ∈ g.states, s.sid < g.nextId)
    (hsym : SymbolsOk nodes g)
    (hsort : StatesSorted g) :
    ∃ d,
      (processRange nodes sid its g b e).trace = g.trace ++ d ∧
      (∀ sid2, Event.setProcessed sid2 ∉ d) ∧
      (∀ sid2 it2, Event.addItem sid2 it2 ∈ d → g.nextId ≤ sid2) ∧
      g.nextId ≤ (processRange nodes sid its g b e).nextId ∧
      (∀ s ∈ (processRange nodes sid its g b e).states,
        s.sid < (processRange nodes sid its g b e).nextId) ∧
      SymbolsOk nodes (processRange nodes sid its g b e) ∧
      StatesSorted (processRange nodes sid its g b e) := by
  have hmapsp : ∀ sid2, Event.setProcessed sid2 ∉
      (gotoAdds nodes its b e).map (Event.addItem g.nextId) := by
    intro sid2 hmem
    obtain ⟨a, _, habs⟩ := List.mem_map.mp hmem
    exact Event.noConfusion habs
  have hmapai : ∀ sid2 it2, Event.addItem sid2 it2 ∈
      (gotoAdds nodes its b e).map (Event.addItem g.nextId) → g.nextId ≤ sid2 := by
    intro sid2 it2 hmem
    obtain ⟨a, _, habs⟩ := List.mem_map.mp hmem
    rw [Event.addItem.injEq] at habs
    omega
  by_cases hgi : gotoItems nodes its b e = []
  · have heq : processRange nodes sid its g b e =
        { g with nextId := g.nextId + 1,
                 trace := g.trace ++
                   (gotoAdds nodes its b e).map (Event.addItem g.nextId) } := by
      simp [processRange, hgi]
    rw [heq]
    dsimp only
    refine ⟨(gotoAdds nodes its b e).map (Event.addItem g.nextId),
      rfl, hmapsp, hmapai, by omega, ?_, ?_, ?_⟩
    · intro s hs
      have := hsid s hs
      omega
    · intro s hs
      exact hsym s hs
    · exact hsort
  · cases hfind : findState g.states (gotoItems nodes its b e) with
    | some t =>
      have heq : processRange nodes sid its g b e =
          { states := addTransitionTo g.states sid (b, e, t.sid),
            nextId := g.nextId + 1,
            fired := g.fired,
            trace := (g.trace ++
                (gotoAdds nodes its b e).map (Event.addItem g.nextId)) ++
              [Event.addTransition sid b e t.sid] } := by
        simp [processRange, hgi, hfind]
      rw [heq]
      dsimp only
      refine ⟨(gotoAdds nodes its b e).map (Event.addItem g.nextId) ++
        [Event.addTransition sid b e t.sid],
        by simp, ?_, ?_, by omega, ?_, ?_, ?_⟩
      · intro sid2 hmem
        rcases List.mem_append.mp hmem with hm | hm
        · exact hmapsp sid2 hm
        · simp at hm
      · intro sid2 it2 hmem
        rcases List.mem_append.mp hmem with hm | hm
        · exact hmapai sid2 it2 hm
        · simp at hm
      · intro s hs
        obtain ⟨s0, hs0, _, _, hss⟩ := mem_addTransitionTo _ _ _ s hs
        have := hsid s0 hs0
        rw [hss]
        omega
      · intro s hs
        obtain ⟨s0, hs0, hit, hsy, _⟩ := mem_addTransitionTo _ _ _ s hs
        rw [hit, hsy]
        exact hsym s0 hs0
      · exact addTransitionTo_pairwise _ _ _ hsort
    | none =>
      have hne : ∀ u ∈ addTransitionTo g.states sid (b, e, g.nextId),
          u.items ≠ gotoItems nodes its b e := by
        intro u hu
        obtain ⟨s0, hs0, hit, _, _⟩ := mem_addTransitionTo _ _ _ u hu
        have hnone := List.find?_eq_none.mp hfind s0 hs0
        simp only [decide_eq_true_eq] at hnone
        rw [hit]
        exact hnone
      have heq : processRange nodes sid its g b e =
          { states := insertStateSorted
              (mkState g.nextId (gotoItems nodes its b e)
                ((generate_symbol_for_state (itemNodes nodes
                  (gotoItems nodes its b e))).token.map (fun t => t.symbol)))
              (addTransitionTo g.states sid (b, e, g.nextId)),
            nextId := g.nextId + 1,
            fired := g.fired ++ (generate_symbol_for_state (itemNodes nodes
              (gotoItems nodes its b e))).conflicts,
            trace := (g.trace ++
                (gotoAdds nodes its b e).map (Event.addItem g.nextId)) ++
              [Event.setSymbol g.nextId
                ((generate_symbol_for_state (itemNodes nodes
                  (gotoItems nodes its b e))).token.map (fun t => t.symbol)),
                Event.addTransition sid b e g.nextId] } := by
        simp [processRange, hgi, hfind]
      rw [heq]
      dsimp only
      refine ⟨(gotoAdds nodes its b e).map (Event.addItem g.nextId) ++
        [Event.setSymbol g.nextId
            ((generate_symbol_for_state (itemNodes nodes
              (gotoItems nodes its b e))).token.map (fun t => t.symbol)),
          Event.addTransition sid b e g.nextId],
        by simp, ?_, ?_, by omega, ?_, ?_, ?_⟩
      · intro sid2 hmem
        rcases List.mem_append.mp hmem with hm | hm
        · exact hmapsp sid2 hm
        · simp at hm
      · intro sid2 it2 hmem
        rcases List.mem_append.mp hmem with hm | hm
        · exact hmapai sid2 it2 hm
        · simp at hm
      · intro s hs
        rcases mem_insertStateSorted _ _ s hs with hs | hs
        · rw [hs]
          simp [mkState]
        · obtain ⟨s0, hs0, _, _, hss⟩ := mem_addTransitionTo _ _ _ s hs
          have := hsid s0 hs0
          rw [hss]
          omega
      · intro s hs
        rcases mem_insertStateSorted _ _ s hs with hs | hs
        · rw [hs]
          rfl
        · obtain ⟨s0, hs0, hit, hsy, _⟩ := mem_addTransitionTo _ _ _ s hs
          rw [hit, hsy]
          exact hsym s0 hs0
      · exact insertStateSorted_pairwise _ _
          (addTransitionTo_pairwise _ _ _ hsort) hne

theorem processRange_fold_inv (nodes : List RegexNode) (sid : Nat)
    (its : List (List Nat)) (rs : List (Int × Int)) :
    ∀ g : GenSt,
      (∀ s ∈ g.states, s.sid < g.nextId) →
      SymbolsOk nodes g →
      StatesSorted g →
      ∃ d,
        (rs.foldl (fun gg r => processRange nodes sid its gg r.1 r.2) g).trace =
          g.trace ++ d ∧
        (∀ sid2, Event.setProcessed sid2 ∉ d) ∧
        (∀ sid2 it2, Event.addItem sid2 it2 ∈ d → g.nextId ≤ sid2) ∧
        g.nextId ≤
          (rs.foldl (fun gg r => processRange nodes sid its gg r.1 r.2) g).nextId ∧
        (∀ s ∈ (rs.foldl (fun gg r => processRange nodes sid its gg r.1 r.2) g).states,
          s.sid <
            (rs.foldl (fun gg r => processRange nodes sid its gg r.1 r.2) g).nextId) ∧
        SymbolsOk nodes
          (rs.foldl (fun gg r => processRange nodes sid its gg r.1 r.2) g) ∧
        StatesSorted
          (rs.foldl (fun gg r => processRange nodes sid its gg r.1 r.2) g) := by
  induction rs with
  | nil =>
    intro g hsid hsym hsort
    exact ⟨[], by simp, by simp, by simp, le_refl _, hsid, hsym, hsort⟩
  | cons r rest ih =>
    intro g hsid hsym hsort
    obtain ⟨d1, htr1, hsp1, hai1, hle1, hsid1, hsym1, hsort1⟩ :=
      processRange_inv nodes sid its g r.1 r.2 hsid hsym hsort
    obtain ⟨d2, htr2, hsp2, hai2, hle2, hsid2, hsym2, hsort2⟩ :=
      ih (processRange nodes sid its g r.1 r.2) hsid1 hsym1 hsort1
    rw [List.foldl_cons]
    refine ⟨d1 ++ d2, ?_, ?_, ?_, ?_, hsid2, hsym2, hsort2⟩
    · rw [htr2, htr1, List.append_assoc]
    · intro sid2 hmem
      rcases List.mem_append.mp hmem with hm | hm
      · exact hsp1 sid2 hm
      · exact hsp2 sid2 hm
    · intro sid2 it2 hmem
      rcases List.mem_append.mp hmem with hm | hm
      · exact hai1 sid2 it2 hm
      · exact le_trans hle1 (hai2 sid2 it2 hm)
    · exact le_trans hle1 hle2

theorem processState_inv (nodes : List RegexNode) (base : Nat) (g : GenSt)
    (sid : Nat) (its : List (List Nat))
    (hinv : GenInv nodes base g) (hsidlt : sid < g.nextId) :
    GenInv nodes base (processState nodes g sid its) := by
  obtain ⟨hno, hbase, hsp, hai, hsid, hsym, hsort⟩ := hinv
  have hg1sid : ∀ s ∈ markProcessed g.states sid, s.sid < g.nextId := by
    intro s hs
    obtain ⟨s0, hs0, _, _, hss⟩ := mem_markProcessed g.states sid s hs
    rw [hss]
    exact hsid s0 hs0
  have hg1sym : ∀ s ∈ markProcessed g.states sid,
      s.symbol = stateSymbol (itemNodes nodes s.items) := by
    intro s hs
    obtain ⟨s0, hs0, hit, hsy, _⟩ := mem_markProcessed g.states sid s hs
    rw [hit, hsy]
    exact hsym s0 hs0
  have hg1sort := markProcessed_pairwise g.states sid hsort
  obtain ⟨d, htr, hdsp, hdai, hle, hsid2, hsym2, hsort2⟩ :=
    processRange_fold_inv nodes sid its (walkRanges (computeRanges nodes its))
      { g with states := markProcessed g.states sid,
               trace := g.trace ++ [Event.setProcessed sid] }
      hg1sid hg1sym hg1sort
  rw [processState]
  refine ⟨?_, ?_, ?_, ?_, hsid2, hsym2, hsort2⟩
  · rw [htr]
    dsimp only
    rw [List.append_assoc]
    refine NoIAP_append g.trace _ hno ?_ ?_
    · refine NoIAP_append _ d ?_ ?_ ?_
      · exact NoIAP_singleton _
      · exact NoIAP_of_sids g.nextId d (fun s2 hs2 => absurd hs2 (hdsp s2)) hdai
      · intro s2 hmem it hmem2
        simp at hmem
        subst hmem
        have hb := hdai s2 it hmem2
        dsimp only at hb
        omega
    · intro s2 hmem it hmem2
      have hlt : s2 < g.nextId := hsp s2 hmem
      rcases List.mem_append.mp hmem2 with hm | hm
      · simp at hm
      · have hb := hdai s2 it hm
        dsimp only at hb
        omega
  · dsimp only at hle ⊢
    omega
  · intro s2 hmem
    rw [htr] at hmem
    dsimp only at hmem hle ⊢
    rcases List.mem_append.mp hmem with hm | hm
    · rcases List.mem_append.mp hm with hm2 | hm2
      · have := hsp s2 hm2
        omega
      · simp at hm2
        subst hm2
        omega
    · exact absurd hm (hdsp s2)
  · intro s2 it2 hmem
    rw [htr] at hmem
    dsimp only at hmem
    rcases List.mem_append.mp hmem with hm | hm
    · rcases List.mem_append.mp hm with hm2 | hm2
      · exact hai s2 it2 hm2
      · simp at hm2
    · have := hdai s2 it2 hm
      dsimp only at this
      omega

theorem genLoop_inv (nodes : List RegexNode) (base : Nat) (fuel : Nat) :
    ∀ g : GenSt, GenInv nodes base g → GenInv nodes base (genLoop nodes fuel g) := by
  induction fuel with
  | zero => intro g h; exact h
  | succ n ih =>
    intro g h
    rw [genLoop]
    cases hfu : firstUnprocessed g.states with
    | none => exact h
    | some s =>
      have hmem : s ∈ g.states := List.mem_of_find?_eq_some hfu
      have hlt : s.sid < g.nextId := h.2.2.2.2.1 s hmem
      exact ih _ (processState_inv nodes base g s.sid s.items h hlt)

theorem generate_states_inv (p : RegexParserOut) (fuel firstId : Nat) :
    GenInv p.nodes firstId (generate_states p fuel firstId).gen := by
  by_cases hc : (!p.empty && p.errors == 0) = true
  · have heq : (generate_states p fuel firstId).gen =
        genLoop p.nodes fuel
          { states := [mkState firstId [toPosSet p.firstpos]
              ((generate_symbol_for_state (itemNodes p.nodes
                [toPosSet p.firstpos])).token.map (fun t => t.symbol))],
            nextId := firstId + 1,
            fired := (generate_symbol_for_state (itemNodes p.nodes
              [toPosSet p.firstpos])).conflicts,
            trace := [Event.addItem firstId (toPosSet p.firstpos),
              Event.setSymbol firstId ((generate_symbol_for_state (itemNodes p.nodes
                [toPosSet p.firstpos])).token.map (fun t => t.symbol))] } := by
      simp [generate_states, hc]
    rw [heq]
    apply genLoop_inv
    refine ⟨?_, by dsimp only; omega, ?_, ?_, ?_, ?_, ?_⟩
    · refine NoIAP_of_no_sp _ ?_
      intro s2 hmem
      simp at hmem
    · intro s2 hmem
      simp at hmem
    · intro s2 it2 hmem
      simp at hmem
      omega
    · intro s hs
      simp at hs
      rw [hs]
      simp [mkState]
    · intro s hs
      simp at hs
      rw [hs]
      rfl
    · simp [StatesSorted]
  · have heq : generate_states p fuel firstId = ⟨⟨[], firstId, [], []⟩, none⟩ := by
      simp only [generate_states, hc]
      simp
    rw [heq]
    refine ⟨?_, le_refl _, ?_, ?_, ?_, ?_, ?_⟩
    · intro u s2 v habs it _
      simp at habs
    · intro s2 hmem
      simp at hmem
    · intro s2 it2 hmem
      simp at hmem
    · intro s hs
      simp at hs
    · intro s hs
      simp at hs
    · simp [StatesSorted]

/-! ## Lemmas: conflict reporting -/

theorem symStepToken_conflicts (s : SymSel) (t : LexerToken) :
    ∃ d, (symStepToken s t).conflicts = s.conflicts ++ d := by
  rw [symStepToken]
  split_ifs
  · exact ⟨[], by simp⟩
  · exact ⟨[], by simp⟩
  · exact ⟨[(s.token, t)], rfl⟩
  · exact ⟨[], by simp⟩

theorem scanTokens_conflicts_mono (ts : List LexerToken) :
    ∀ s : SymSel, ∃ d, (scanTokens s ts).conflicts = s.conflicts ++ d := by
  induction ts with
  | nil => intro s; exact ⟨[], by simp [scanTokens]⟩
  | cons t ts ih =>
    intro s
    obtain ⟨d1, hd1⟩ := symStepToken_conflicts s t
    obtain ⟨d2, hd2⟩ := ih (symStepToken s t)
    refine ⟨d1 ++ d2, ?_⟩
    have hcons : scanTokens s (t :: ts) = scanTokens (symStepToken s t) ts := rfl
    rw [hcons, hd2, hd1, List.append_assoc]

theorem scanTokens_conflict_split (ts : List LexerToken)
    (h : ∀ t ∈ ts, t.line < INT_MAX)
    (hc : (scanTokens initSymSel ts).conflicts ≠ []) :
    ∃ t1 t2 l1 l2 l3, ts = l1 ++ t1 :: l2 ++ t2 :: l3 ∧
      t1.type = t2.type ∧ t1.line = t2.line := by
  induction ts using List.reverseRecOn with
  | nil => exact absurd rfl hc
  | append_singleton l t ih =>
    have hl : ∀ u ∈ l, u.line < INT_MAX := fun u hu => h u (by simp [hu])
    have ht : t.line < INT_MAX := h t (by simp)
    rw [scanTokens_append, scanTokens_singleton] at hc
    by_cases hsc : (scanTokens initSymSel l).conflicts = []
    · by_cases hb1 : t.type > (scanTokens initSymSel l).type
      · simp [symStepToken, hb1] at hc
        exact absurd hsc hc
      · by_cases hb2 : t.type = (scanTokens initSymSel l).type ∧
            t.line < (scanTokens initSymSel l).line
        · simp [symStepToken, hb1, hb2] at hc
          exact absurd hsc hc
        · by_cases hb3 : t.type = (scanTokens initSymSel l).type ∧
              t.line = (scanTokens initSymSel l).line
          · rcases scanTokens_sel l hl with ⟨hnil, hs⟩ | ⟨t1, l1, l2, hsplit, _, hty, hln⟩
            · rw [hs] at hb3
              have habs : t.line = INT_MAX := hb3.2
              rw [habs] at ht
              exact absurd ht (lt_irrefl INT_MAX)
            · refine ⟨t1, t, l1, l2, [], ?_, ?_, ?_⟩
              · simp [hsplit]
              · rw [hty, hb3.1]
              · rw [hln, hb3.2]
          · simp [symStepToken, hb1, hb2, hb3] at hc
            exact absurd hsc hc
    · obtain ⟨t1, t2, l1, l2, l3, hsplit, h1, h2⟩ := ih hl hsc
      refine ⟨t1, t2, l1, l2, l3 ++ [t], ?_, h1, h2⟩
      simp [hsplit]

theorem scanTokens_conflict_of_two_best (t1 t2 : LexerToken)
    (l1 l2 l3 : List LexerToken)
    (hb1 : tokenPair t1 = bestPair (l1 ++ t1 :: l2 ++ t2 :: l3))
    (hb2 : tokenPair t2 = bestPair (l1 ++ t1 :: l2 ++ t2 :: l3)) :
    (scanTokens initSymSel (l1 ++ t1 :: l2 ++ t2 :: l3)).conflicts ≠ [] := by
  have hinit : ((initSymSel.type : Nat), initSymSel.line) = ((0 : Nat), INT_MAX) := rfl
  have hts : l1 ++ t1 :: l2 ++ t2 :: l3 = (l1 ++ t1 :: l2) ++ t2 :: l3 := by
    simp
  have hpair := scanTokens_pair (l1 ++ t1 :: l2) initSymSel
  rw [hinit] at hpair
  have hmem1 : t1 ∈ l1 ++ t1 :: l2 := by simp
  have hle1 : pairLe (tokenPair t1)
      ((scanTokens initSymSel (l1 ++ t1 :: l2)).type,
        (scanTokens initSymSel (l1 ++ t1 :: l2)).line) := by
    rw [hpair]
    exact (bestFold_le (l1 ++ t1 :: l2) ((0 : Nat), INT_MAX)).2 t1 hmem1
  have hle2 : pairLe ((scanTokens initSymSel (l1 ++ t1 :: l2)).type,
      (scanTokens initSymSel (l1 ++ t1 :: l2)).line)
      (bestPair (l1 ++ t1 :: l2 ++ t2 :: l3)) := by
    rw [hts, bestPair, hpair]
    exact bestFold_append_le (l1 ++ t1 :: l2) (t2 :: l3) ((0 : Nat), INT_MAX)
  have hseq : ((scanTokens initSymSel (l1 ++ t1 :: l2)).type,
      (scanTokens initSymSel (l1 ++ t1 :: l2)).line) = tokenPair t2 := by
    rw [hb2]
    refine pairLe_antisymm hle2 ?_
    rw [← hb1]
    exact hle1
  have ht2ty : t2.type = (scanTokens initSymSel (l1 ++ t1 :: l2)).type := by
    have := congrArg Prod.fst hseq
    simpa [tokenPair] using this.symm
  have ht2ln : t2.line = (scanTokens initSymSel (l1 ++ t1 :: l2)).line := by
    have := congrArg Prod.snd hseq
    simpa [tokenPair] using this.symm
  have hstep : (symStepToken (scanTokens initSymSel (l1 ++ t1 :: l2)) t2).conflicts =
      (scanTokens initSymSel (l1 ++ t1 :: l2)).conflicts ++
        [((scanTokens initSymSel (l1 ++ t1 :: l2)).token, t2)] := by
    have hc1 : ¬ t2.type > (scanTokens initSymSel (l1 ++ t1 :: l2)).type := by
      omega
    have hc2 : ¬ (t2.type = (scanTokens initSymSel (l1 ++ t1 :: l2)).type ∧
        t2.line < (scanTokens initSymSel (l1 ++ t1 :: l2)).line) := by
      intro hx
      omega
    simp [symStepToken, hc1, hc2, ht2ty, ht2ln]
  have hconsn : scanTokens (scanTokens initSymSel (l1 ++ t1 :: l2)) (t2 :: l3) =
      scanTokens (symStepToken (scanTokens initSymSel (l1 ++ t1 :: l2)) t2) l3 := rfl
  obtain ⟨d, hd⟩ := scanTokens_conflicts_mono l3
    (symStepToken (scanTokens initSymSel (l1 ++ t1 :: l2)) t2)
  rw [hts, scanTokens_append, hconsn, hd, hstep]
  simp

/-! ## Lemmas: index assignment -/

theorem mem_assignIndices (ss : List LexerState) :
    ∀ i, ∀ u ∈ assignIndices i ss, ∃ u0 ∈ ss, u.items = u0.items := by
  induction ss with
  | nil =>
    intro i u hu
    simp [assignIndices] at hu
  | cons s ss ih =>
    intro i u hu
    rw [assignIndices] at hu
    rcases List.mem_cons.mp hu with hu | hu
    · exact ⟨s, by simp, by rw [hu]⟩
    · obtain ⟨u0, hu0, hit⟩ := ih (i + 1) u hu
      exact ⟨u0, List.mem_cons_of_mem _ hu0, hit⟩

theorem assignIndices_pairwise (ss : List LexerState)
    (h : ss.Pairwise fun a b => itemsLt a.items b.items = true) :
    ∀ i, (assignIndices i ss).Pairwise
      fun a b => itemsLt a.items b.items = true := by
  induction ss with
  | nil => intro i; simp [assignIndices]
  | cons s ss ih =>
    intro i
    obtain ⟨hs, htail⟩ := List.pairwise_cons.mp h
    rw [assignIndices]
    refine List.pairwise_cons.mpr ⟨?_, ih htail (i + 1)⟩
    intro u hu
    obtain ⟨u0, hu0, hitems⟩ := mem_assignIndices ss (i + 1) u hu
    have hlt := hs u0 hu0
    simp only [hitems]
    exact hlt

theorem assignIndices_map_index (ss : List LexerState) :
    ∀ i, (assignIndices i ss).map (fun s => s.index) =
      (List.range' i ss.length).map some := by
  induction ss with
  | nil => intro i; simp [assignIndices]
  | cons s ss ih =>
    intro i
    rw [assignIndices, List.length_cons, List.range'_succ, List.map_cons,
      List.map_cons, ih (i + 1)]

theorem assignIndices_length (ss : List LexerState) :
    ∀ i, (assignIndices i ss).length = ss.length := by
  induction ss with
  | nil => intro i; rfl
  | cons s ss ih =>
    intro i
    rw [assignIndices, List.length_cons, List.length_cons, ih (i + 1)]

/-! ## Lemmas: the error sink -/

theorem deliverAll_none (evs : List (Option LexerToken × LexerToken)) :
    deliverAll none evs = none := by
  induction evs with
  | nil => rfl
  | cons e evs ih =>
    have hstep : deliverAll none (e :: evs) = deliverAll (fire_error none e) evs :=
      rfl
    rw [hstep]
    exact ih

/-! ## Remaining claims -/

/-- C3: when the regex parser reported at least one error, or the
combined regex tree is empty, generate_states produces an empty state
set, leaves the start state null, and reports no further errors (and in
fact emits no construction events at all). -/
theorem c3_errors_skip_construction (p : RegexParserOut) (fuel firstId : Nat)
    (h : 0 < p.errors ∨ p.empty = true) :
    (generate_states p fuel firstId).gen.states = [] ∧
    (generate_states p fuel firstId).start = none ∧
    (generate_states p fuel firstId).gen.fired = [] ∧
    (generate_states p fuel firstId).gen.trace = [] := by
  have hc : (!p.empty && p.errors == 0) = false := by
    rcases h with h | h
    · have h0 : (p.errors == 0) = false := by
        rw [beq_eq_false_iff_ne]
        omega
      rw [h0, Bool.and_false]
    · rw [h]
      rfl
  have heq : generate_states p fuel firstId = ⟨⟨[], firstId, [], []⟩, none⟩ := by
    simp only [generate_states, hc]
    simp
  rw [heq]
  exact ⟨rfl, rfl, rfl, rfl⟩

theorem c3_errors_skip_construction_witness :
    (0 < (⟨false, 1, [], []⟩ : RegexParserOut).errors ∨
      (⟨false, 1, [], []⟩ : RegexParserOut).empty = true) ∧
    ((generate_states ⟨false, 1, [], []⟩ 5 0).gen.states = [] ∧
      (generate_states ⟨false, 1, [], []⟩ 5 0).start = none ∧
      (generate_states ⟨false, 1, [], []⟩ 5 0).gen.fired = [] ∧
      (generate_states ⟨false, 1, [], []⟩ 5 0).gen.trace = []) :=
  ⟨Or.inl (by decide),
    c3_errors_skip_construction ⟨false, 1, [], []⟩ 5 0 (Or.inl (by decide))⟩

/-- C4 (amended): a symbol-conflict error is reported only if two
distinct accepting tokens of the state have equal type and equal line;
it is always reported when two distinct accepting tokens both carry the
winning pair (maximal type, minimal line among that type); two tokens of
equal type and line that are shadowed by a higher-priority token may go
unreported; and errors never abort construction: every state of the
generated set carries exactly the symbol computed from its items by the
priority rules. -/
theorem c4_symbol_conflict (items : List (List RegexNode))
    (h : ∀ t ∈ endTokens items, t.line < INT_MAX) :
    ((generate_symbol_for_state items).conflicts ≠ [] →
      ∃ t1 t2 l1 l2 l3, endTokens items = l1 ++ t1 :: l2 ++ t2 :: l3 ∧
        t1.type = t2.type ∧ t1.line = t2.line) ∧
    (∀ (t1 t2 : LexerToken) (l1 l2 l3 : List LexerToken),
      endTokens items = l1 ++ t1 :: l2 ++ t2 :: l3 →
      tokenPair t1 = bestPair (endTokens items) →
      tokenPair t2 = bestPair (endTokens items) →
      (generate_symbol_for_state items).conflicts ≠ []) ∧
    (∀ (p : RegexParserOut) (fuel firstId : Nat),
      ∀ s ∈ (generate_states p fuel firstId).gen.states,
        s.symbol = stateSymbol (itemNodes p.nodes s.items)) := by
  refine ⟨?_, ?_, ?_⟩
  · intro hc
    rw [generate_symbol_eq_scanTokens] at hc
    exact scanTokens_conflict_split (endTokens items) h hc
  · intro t1 t2 l1 l2 l3 hsplit hb1 hb2
    rw [generate_symbol_eq_scanTokens, hsplit]
    rw [hsplit] at hb1 hb2
    exact scanTokens_conflict_of_two_best t1 t2 l1 l2 l3 hb1 hb2
  · intro p fuel firstId s hs
    exact (generate_states_inv p fuel firstId).2.2.2.2.2.1 s hs

theorem c4_symbol_conflict_witness :
    (∀ t ∈ endTokens [[⟨0, 0, true, some ⟨1, 1, 7⟩, []⟩,
        ⟨0, 0, true, some ⟨1, 1, 8⟩, []⟩]], t.line < INT_MAX) ∧
    (((generate_symbol_for_state [[⟨0, 0, true, some ⟨1, 1, 7⟩, []⟩,
          ⟨0, 0, true, some ⟨1, 1, 8⟩, []⟩]]).conflicts ≠ [] →
        ∃ t1 t2 l1 l2 l3,
          endTokens [[⟨0, 0, true, some ⟨1, 1, 7⟩, []⟩,
            ⟨0, 0, true, some ⟨1, 1, 8⟩, []⟩]] = l1 ++ t1 :: l2 ++ t2 :: l3 ∧
          t1.type = t2.type ∧ t1.line = t2.line) ∧
      (∀ (t1 t2 : LexerToken) (l1 l2 l3 : List LexerToken),
        endTokens [[⟨0, 0, true, some ⟨1, 1, 7⟩, []⟩,
          ⟨0, 0, true, some ⟨1, 1, 8⟩, []⟩]] = l1 ++ t1 :: l2 ++ t2 :: l3 →
        tokenPair t1 = bestPair (endTokens [[⟨0, 0, true, some ⟨1, 1, 7⟩, []⟩,
          ⟨0, 0, true, some ⟨1, 1, 8⟩, []⟩]]) →
        tokenPair t2 = bestPair (endTokens [[⟨0, 0, true, some ⟨1, 1, 7⟩, []⟩,
          ⟨0, 0, true, some ⟨1, 1, 8⟩, []⟩]]) →
        (generate_symbol_for_state [[⟨0, 0, true, some ⟨1, 1, 7⟩, []⟩,
          ⟨0, 0, true, some ⟨1, 1, 8⟩, []⟩]]).conflicts ≠ []) ∧
      (∀ (p : RegexParserOut) (fuel firstId : Nat),
        ∀ s ∈ (generate_states p fuel firstId).gen.states,
          s.symbol = stateSymbol (itemNodes p.nodes s.items))) :=
  ⟨by decide, c4_symbol_conflict _ (by decide)⟩

/-- C4 fails as stated: with the accepting tokens visited in the order
(type 2, line 5), (type 3, line 1), (type 2, line 5), two distinct
accepting tokens of the state share type and line, yet no symbol-conflict
error is fired, because the higher-priority token (type 3) shadows the
duplicate before it is compared against its twin. -/
theorem c4_counterexample :
    (generate_symbol_for_state
        [[⟨0, 0, true, some ⟨2, 5, 1⟩, []⟩, ⟨0, 0, true, some ⟨3, 1, 2⟩, []⟩,
          ⟨0, 0, true, some ⟨2, 5, 3⟩, []⟩]]).conflicts = [] ∧
    endTokens [[⟨0, 0, true, some ⟨2, 5, 1⟩, []⟩, ⟨0, 0, true, some ⟨3, 1, 2⟩, []⟩,
        ⟨0, 0, true, some ⟨2, 5, 3⟩, []⟩]] =
      [] ++ (⟨2, 5, 1⟩ : LexerToken) :: [⟨3, 1, 2⟩] ++ (⟨2, 5, 3⟩ : LexerToken) :: [] ∧
    (⟨2, 5, 1⟩ : LexerToken).type = (⟨2, 5, 3⟩ : LexerToken).type ∧
    (⟨2, 5, 1⟩ : LexerToken).line = (⟨2, 5, 3⟩ : LexerToken).line ∧
    (⟨2, 5, 1⟩ : LexerToken) ≠ (⟨2, 5, 3⟩ : LexerToken) := by
  refine ⟨by decide, by decide, rfl, rfl, by decide⟩

/-- C5: determinism.  The embedding of the generator is a pure function
of the input specification: state identity and iteration order are by
item sets (not addresses), so two runs on the same input produce the very
same states, transitions, symbols and indices; moreover the produced
state order is canonical, strictly sorted by item sets, in both DFAs. -/
theorem c5_deterministic (p pw : RegexParserOut) (fuel : Nat) :
    runGenerator p pw fuel = runGenerator p pw fuel ∧
    (runGenerator p pw fuel).states.Pairwise
      (fun a b => itemsLt a.items b.items = true) ∧
    (runGenerator p pw fuel).whitespaceStates.Pairwise
      (fun a b => itemsLt a.items b.items = true) := by
  refine ⟨rfl, ?_, ?_⟩
  · have h1 : (runGenerator p pw fuel).states =
        assignIndices 0 (generate_states p fuel 0).gen.states := rfl
    rw [h1]
    exact assignIndices_pairwise _ (generate_states_inv p fuel 0).2.2.2.2.2.2 0
  · have h2 : (runGenerator p pw fuel).whitespaceStates =
        assignIndices (generate_states p fuel 0).gen.states.length
          (generate_states pw fuel (generate_states p fuel 0).gen.nextId).gen.states :=
      rfl
    rw [h2]
    exact assignIndices_pairwise _
      (generate_states_inv pw fuel (generate_states p fuel 0).gen.nextId).2.2.2.2.2.2 _

/-- C6: after generation with both a token list and a whitespace token
list, the main states carry the indices 0 .. n-1 in set order and the
whitespace states carry n .. n+m-1, one contiguous range with whitespace
indices starting immediately after the last main index. -/
theorem c6_contiguous_indices (p pw : RegexParserOut) (fuel : Nat) :
    (runGenerator p pw fuel).states.map (fun s => s.index) =
      (List.range' 0 (runGenerator p pw fuel).states.length).map some ∧
    (runGenerator p pw fuel).whitespaceStates.map (fun s => s.index) =
      (List.range' (runGenerator p pw fuel).states.length
        (runGenerator p pw fuel).whitespaceStates.length).map some := by
  have h1 : (runGenerator p pw fuel).states =
      assignIndices 0 (generate_states p fuel 0).gen.states := rfl
  have h2 : (runGenerator p pw fuel).whitespaceStates =
      assignIndices (generate_states p fuel 0).gen.states.length
        (generate_states pw fuel (generate_states p fuel 0).gen.nextId).gen.states :=
    rfl
  rw [h1, h2, assignIndices_map_index, assignIndices_map_index,
    assignIndices_length, assignIndices_length]
  exact ⟨rfl, rfl⟩

/-- C8 (amended): a state's items are fully populated before its
processed flag is set: in the construction trace, no addItem event on a
state object ever follows that object's setProcessed event.  (After
processing, the fields that are still written are the state's own
transitions -- during the very step that set the flag -- its symbol,
which is generated before the flag, and its index.) -/
theorem c8_lifecycle (p pw : RegexParserOut) (fuel : Nat) :
    NoIAP (runGenerator p pw fuel).trace := by
  obtain ⟨hno_m, _, hsp_m, _, _, _, _⟩ := generate_states_inv p fuel 0
  obtain ⟨hno_w, hbase_w, _, hai_w, _, _, _⟩ :=
    generate_states_inv pw fuel (generate_states p fuel 0).gen.nextId
  have htr : (runGenerator p pw fuel).trace =
      (generate_states p fuel 0).gen.trace ++
      (indexEvents 0 (generate_states p fuel 0).gen.states ++
      ((generate_states pw fuel (generate_states p fuel 0).gen.nextId).gen.trace ++
      (indexEvents 0 (generate_states p fuel 0).gen.states ++
      indexEvents (generate_states p fuel 0).gen.states.length
        (generate_states pw fuel (generate_states p fuel 0).gen.nextId).gen.states))) := by
    show (generate_states p fuel 0).gen.trace ++
        indexEvents 0 (generate_states p fuel 0).gen.states ++ _ ++ _ ++ _ = _
    simp [List.append_assoc]
  rw [htr]
  have hIEsp : ∀ (i : Nat) (ss : List LexerState) sid,
      Event.setProcessed sid ∉ indexEvents i ss := by
    intro i ss sid hmem
    exact (indexEvents_kinds ss i _ hmem).2 sid rfl
  have hIEai : ∀ (i : Nat) (ss : List LexerState) sid it,
      Event.addItem sid it ∉ indexEvents i ss := by
    intro i ss sid it hmem
    exact (indexEvents_kinds ss i _ hmem).1 sid it rfl
  refine NoIAP_append _ _ hno_m ?_ ?_
  · refine NoIAP_append _ _ (NoIAP_of_no_sp _ (fun sid => hIEsp _ _ sid)) ?_ ?_
    · refine NoIAP_append _ _ hno_w ?_ ?_
      · refine NoIAP_append _ _ (NoIAP_of_no_sp _ (fun sid => hIEsp _ _ sid))
          (NoIAP_of_no_sp _ (fun sid => hIEsp _ _ sid)) ?_
        intro sid hmem it
        exact absurd hmem (hIEsp _ _ sid)
      · intro sid hmem it hmem2
        rcases List.mem_append.mp hmem2 with hm | hm
        · exact hIEai _ _ sid it hm
        · exact hIEai _ _ sid it hm
    · intro sid hmem it hmem2
      exact absurd hmem (hIEsp _ _ sid)
  · intro sid hmem it hmem2
    have hlt := hsp_m sid hmem
    rcases List.mem_append.mp hmem2 with hm | hm
    · exact hIEai _ _ sid it hm
    · rcases List.mem_append.mp hm with hm2 | hm2
      · have hge := hai_w sid it hm2
        omega
      · rcases List.mem_append.mp hm2 with hm3 | hm3
        · exact hIEai _ _ sid it hm3
        · exact hIEai _ _ sid it hm3

/-- C8 fails as stated: on the single token regex "a" the construction
trace sets the start state's processed flag (position 2) and only
afterwards adds the outgoing transition to it (position 5): the
transitions field is modified after processed becomes true, so symbol and
index are not the only fields written after processing. -/
theorem c8_counterexample :
    (runGenerator ⟨false, 0, [⟨97, 98, false, none, [1]⟩,
        ⟨0, 0, true, some ⟨1, 1, 100⟩, []⟩], [0]⟩ ⟨true, 0, [], []⟩ 5).trace.get? 2 =
      some (Event.setProcessed 0) ∧
    Event.addTransition 0 97 98 1 ∈
      (runGenerator ⟨false, 0, [⟨97, 98, false, none, [1]⟩,
        ⟨0, 0, true, some ⟨1, 1, 100⟩, []⟩], [0]⟩ ⟨true, 0, [], []⟩ 5).trace.drop 3 := by
  refine ⟨by decide, by decide⟩

/-- C10: with a null error sink, fire_error delivers nothing anywhere,
and the generated states, whitespace states, start states, transitions,
symbols and indices are identical to a run with any sink: generation
never reads the sink. -/
theorem c10_null_sink (p pw : RegexParserOut) (fuel : Nat)
    (l : List (Option LexerToken × LexerToken)) :
    (runWithSink none p pw fuel).sink = none ∧
    (runWithSink none p pw fuel).result = (runWithSink (some l) p pw fuel).result :=
  ⟨deliverAll_none _, rfl⟩

/-- C7: action interning.  For a nonempty identifier not interned yet,
add_lexer_action creates a fresh action whose index is the number of
previously created actions and appends it; a repeated call with the same
identifier returns the same action and leaves the registry unchanged; an
empty identifier creates nothing and returns null. -/
theorem c7_action_interning (actions : List LexerAction) (s : String) :
    (s ≠ "" → (∀ a ∈ actions, a.identifier ≠ s) →
      add_lexer_action actions s =
        (some ⟨actions.length, s⟩, actions ++ [⟨actions.length, s⟩])) ∧
    (s ≠ "" →
      add_lexer_action (add_lexer_action actions s).2 s =
        ((add_lexer_action actions s).1, (add_lexer_action actions s).2)) ∧
    add_lexer_action actions "" = (none, actions) := by
  refine ⟨?_, ?_, ?_⟩
  · intro hs hmem
    have hfind : actions.find? (fun a => a.identifier = s) = none := by
      rw [List.find?_eq_none]
      intro a ha
      simp [hmem a ha]
    simp only [add_lexer_action, if_neg hs, hfind]
  · intro hs
    cases hfind : actions.find? (fun a => a.identifier = s) with
    | some a =>
      have h1 : add_lexer_action actions s = (some a, actions) := by
        simp only [add_lexer_action, if_neg hs, hfind]
      rw [h1]
      simp only [add_lexer_action, if_neg hs, hfind]
    | none =>
      have h1 : add_lexer_action actions s =
          (some ⟨actions.length, s⟩, actions ++ [⟨actions.length, s⟩]) := by
        simp only [add_lexer_action, if_neg hs, hfind]
      rw [h1]
      have hfind2 : (actions ++ [(⟨actions.length, s⟩ : LexerAction)]).find?
          (fun a => a.identifier = s) = some ⟨actions.length, s⟩ := by
        rw [List.find?_append, hfind]
        simp
      simp only [add_lexer_action, if_neg hs, hfind2]
  · simp [add_lexer_action]

theorem c7_action_interning_witness :
    add_lexer_action [] "x" = (some ⟨0, "x"⟩, [⟨0, "x"⟩]) ∧
    add_lexer_action (add_lexer_action [] "x").2 "x" =
      ((add_lexer_action [] "x").1, (add_lexer_action [] "x").2) ∧
    add_lexer_action [] "" = (none, []) :=
  ⟨(c7_action_interning [] "x").1 (by decide) (by simp),
    (c7_action_interning [] "x").2.1 (by decide),
    (c7_action_interning [] "x").2.2⟩

end Lalr
